import Mathlib

/-!
Verification development for the PsyDoctor-Client backend memory manager
(`src/backend/memory_manager.py`).

The Python module is shallowly embedded here with value semantics:
message dicts become the `Msg` structure, Python dicts keyed by
conversation id become insertion-ordered association lists, the
sentence-transformer embedder and ISO-timestamp parser become explicit
functional parameters bundled in `Env`, and `numpy`/FAISS inner-product
search becomes exact rational dot products with a stable descending sort
(FAISS `IndexFlatIP` performs exact search).  Machine floats are modelled
by `ℚ`; Python's stable `list.sort(key=..., reverse=True)` is modelled by
`List.insertionSort` with a non-strict comparison, which is stable in the
same way.  One claim concerns in-place dict mutation; for it a second,
heap-indexed model is given further below (`HState`), where message dicts
live in an explicit heap and both the conversation log and the message
index maps hold references into it.
-/

namespace PsyDoctor

/-- A message dict.  `none` in an `Option` field models an absent key.
`role`/`content` use `""` for an absent key, matching the observable
behaviour of `msg.get('role')` / `msg.get('content', '')` at every use
site in the module (they are only compared for equality with non-empty
literals, or tested for emptiness). -/
structure Msg where
  id : Option String := none
  role : String := ""
  content : String := ""
  timestamp : Option String := none
  created_at : Option String := none
  conversation_id : Option String := none
  updatedAt : Option String := none
  source_conversation : Option String := none
deriving DecidableEq, Repr, Inhabited

/-- Conversation metadata dict (the keys the module reads or writes). -/
structure Metadata where
  created_at : Option String := none
  updated_at : Option String := none
  message_count : Option Nat := none
deriving DecidableEq, Repr, Inhabited

/-- One entry of `self.memory`. -/
structure ConvData where
  messages : List Msg := []
  metadata : Metadata := {}
deriving DecidableEq, Repr, Inhabited

/-- Embedding vectors (`numpy` float arrays) as rational lists. -/
abbrev Vec := List ℚ

/-- `np.dot` on equal-length vectors. -/
def dot (a b : Vec) : ℚ := ((a.zip b).map (fun p => p.1 * p.2)).sum

/-- Python-dict lookup on an insertion-ordered association list. -/
def dictLookup (l : List (String × α)) (k : String) : Option α :=
  match l with
  | [] => none
  | (k', v) :: rest => if k' = k then some v else dictLookup rest k

/-- Python-dict update: replace in place if the key exists, else append
(preserving insertion order, as CPython dicts do). -/
def dictSet (l : List (String × α)) (k : String) (v : α) : List (String × α) :=
  match l with
  | [] => [(k, v)]
  | (k', v') :: rest =>
      if k' = k then (k', v) :: rest else (k', v') :: dictSet rest k v

/-- Python slice `l[s:]` for a possibly negative start. -/
def pyDropStart (l : List α) (s : Int) : List α :=
  if 0 ≤ s then l.drop s.toNat else l.drop ((l.length : Int) + s).toNat

/-- Python slice `l[:t]` for a possibly negative stop. -/
def pyTakeTo (l : List α) (t : Int) : List α :=
  if 0 ≤ t then l.take t.toNat else l.take ((l.length : Int) + t).toNat

/-- Python truthiness of a string-valued dict entry (`if x:`):
absent (`None`) and the empty string are falsy. -/
def truthy : Option String → Bool
  | none => false
  | some s => s ≠ ""

/-- Python `a or b` on string-or-None operands. -/
def pyOrStr (a b : Option String) : Option String :=
  if truthy a then a else b

/-- The manager's configuration (constructor arguments actually used by
the embedded operations). -/
structure MMConfig where
  max_recent_messages : Nat := 16
  retrieval_top_k : Nat := 10
  similarity_threshold : ℚ := 3/10
deriving Repr

/-- External capabilities and ambient time, passed explicitly:
`embed` is the sentence-transformer (`None` when the backend fails),
`parseTs` is `datetime.fromisoformat` returning the instant in hours
on success and `none` when the string is unparseable, `nowStr` is
`datetime.now().isoformat()` and `nowQ` the same instant in hours. -/
structure Env where
  embed : String → Option Vec
  parseTs : String → Option ℚ
  nowStr : String
  nowQ : ℚ

/-- The in-memory state of `MemoryManager`: `memory`,
`faiss_indices` (as raw row vectors) and `message_index_maps`. -/
structure MMState where
  memory : List (String × ConvData) := []
  indices : List (String × List Vec) := []
  maps : List (String × List Msg) := []
deriving Repr

/-- `len(content.strip())`: the number of characters remaining after
stripping leading and trailing whitespace (computed on the character
list so that it evaluates by kernel reduction). -/
def strippedLen (s : String) : Nat :=
  ((s.toList.dropWhile (fun c => c.isWhitespace)).reverse.dropWhile
    (fun c => c.isWhitespace)).length

/-- Content eligibility test used throughout the module:
`not content or len(content.strip()) < 3` negated. -/
def contentOk (content : String) : Bool :=
  ¬(content = "" ∨ strippedLen content < 3)

/-- `_get_vector` (the cache is a transparent memoisation of `embed`
and does not change the returned value). -/
def getVectorM (env : Env) (content : String) : Option Vec :=
  if contentOk content then env.embed content else none

/-- The eligible messages of a message list: non-system role and
content passing `contentOk` (the filters of `_build_faiss_index`). -/
def eligibleMsgs (msgs : List Msg) : List Msg :=
  (msgs.filter (fun m => m.role ≠ "system")).filter (fun m => contentOk m.content)

/-- The (vector, message) pairs collected by `_build_faiss_index`. -/
def indexPairs (env : Env) (convMsgs : List Msg) : List (Vec × Msg) :=
  convMsgs.filterMap (fun m =>
    if contentOk m.content then
      (getVectorM env m.content).map (fun v => (v, m))
    else none)

/-- `_build_faiss_index`: rebuilds the index and message map of one
conversation, or leaves the state unchanged when the conversation is
absent, has no non-system messages, or produced no vectors. -/
def buildFaissIndex (env : Env) (st : MMState) (cid : String) : MMState :=
  match dictLookup st.memory cid with
  | none => st
  | some conv =>
      let convMsgs := conv.messages.filter (fun m => m.role ≠ "system")
      if convMsgs = [] then st
      else
        let pairs := indexPairs env convMsgs
        if pairs = [] then st
        else
          { st with
            indices := dictSet st.indices cid (pairs.map (fun p => p.1)),
            maps := dictSet st.maps cid (pairs.map (fun p => p.2)) }

/-- The per-batch loop of `add_messages`: `existingIds` is the id set
computed once before the loop; a message with a truthy id already
present is skipped, a message with a falsy id gets
`f"{cid}_{len(messages)}"`, everything else is appended as is. -/
def processBatch (cid : String) (existingIds : List String)
    (acc : List Msg) : List Msg → List Msg
  | [] => acc
  | m :: rest =>
      if truthy m.id ∧ (m.id.getD "") ∈ existingIds then
        processBatch cid existingIds acc rest
      else
        let m' := if truthy m.id then m
                  else { m with id := some (cid ++ "_" ++ toString acc.length) }
        processBatch cid existingIds (acc ++ [m']) rest

/-- `add_messages`. -/
def addMessages (env : Env) (st : MMState) (cid : String) (batch : List Msg) :
    MMState :=
  let st1 :=
    if (dictLookup st.memory cid).isSome then st
    else { st with
           memory := dictSet st.memory cid
             { messages := [],
               metadata := { created_at := some env.nowStr,
                             updated_at := some env.nowStr } } }
  let conv := (dictLookup st1.memory cid).getD default
  let existingIds := conv.messages.filterMap (fun m => m.id)
  let msgs' := processBatch cid existingIds conv.messages batch
  let conv' : ConvData :=
    { messages := msgs',
      metadata := { conv.metadata with
                    updated_at := some env.nowStr,
                    message_count := some msgs'.length } }
  buildFaissIndex env { st1 with memory := dictSet st1.memory cid conv' } cid

/-- The normalised timestamp of `sync_conversation`:
`msg.get("timestamp") or msg.get("updatedAt") or datetime.now().isoformat()`. -/
def tsOfSync (env : Env) (m : Msg) : String :=
  (pyOrStr m.timestamp (pyOrStr m.updatedAt (some env.nowStr))).getD env.nowStr

/-- The normalised message stored by `sync_conversation`: a fresh dict
with exactly the keys role, content, timestamp, conversation_id and,
when the input carried one, id. -/
def syncNormalize (env : Env) (cid : String) (m : Msg) : Msg :=
  { id := m.id,
    role := m.role,
    content := m.content,
    timestamp := some (tsOfSync env m),
    conversation_id := some cid }

/-- `sync_conversation` (always succeeds in the model; the Python
`return True` is dropped). -/
def syncConversation (env : Env) (st : MMState) (cid : String)
    (msgs : List Msg) (metadata : Option Metadata) : MMState :=
  let backend := msgs.map (syncNormalize env cid)
  let baseMeta := metadata.getD
    { created_at := some env.nowStr,
      updated_at := some env.nowStr,
      message_count := some backend.length }
  let meta := { baseMeta with
                updated_at := some env.nowStr,
                message_count := some backend.length }
  let conv' : ConvData := { messages := backend, metadata := meta }
  let st1 := { st with memory := dictSet st.memory cid conv' }
  buildFaissIndex env st1 cid

/-- `_calculate_time_decay` after timestamp parsing: the argument is the
parsed instant in hours (`none` when `datetime.fromisoformat` raised). -/
def timeDecayQ (pt : Option ℚ) (cur : ℚ) : ℚ :=
  match pt with
  | none => 1/2
  | some t =>
      let h := cur - t
      if h ≤ 24 then 1
      else if h ≤ 168 then 4/5
      else if h ≤ 720 then 1/2
      else 3/10

/-- `_calculate_time_decay` on the stored timestamp string. -/
def calcTimeDecay (env : Env) (ts : String) : ℚ :=
  timeDecayQ (env.parseTs ts) env.nowQ

/-- `msg.get('timestamp', msg.get('created_at', datetime.now().isoformat()))`. -/
def effTimestamp (env : Env) (m : Msg) : String :=
  m.timestamp.getD (m.created_at.getD env.nowStr)

/-- The score expression of the retrieval loops:
`similarity * time_decay * factor`. -/
def finalScore (sim td factor : ℚ) : ℚ := sim * td * factor

/-- A scored candidate dict (`{'message','score','similarity','time_decay'}`). -/
structure REntry where
  message : Msg
  score : ℚ
  similarity : ℚ
  time_decay : ℚ
deriving DecidableEq, Repr, Inhabited

/-- Python's stable `results.sort(key=lambda x: x['score'], reverse=True)`:
insertion sort with a non-strict comparison is stable in the same way. -/
def sortEntriesDesc (l : List REntry) : List REntry :=
  l.insertionSort (fun a b => b.score ≤ a.score)

/-- Exact inner-product search of FAISS `IndexFlatIP`: all rows scored
against the query, sorted by descending similarity (ties in row order),
truncated to `k`.  Returns (similarity, row) pairs. -/
def faissSearch (rows : List Vec) (qv : Vec) (k : Nat) : List (ℚ × Nat) :=
  ((rows.enum.map (fun p => (dot qv p.2, p.1))).insertionSort
    (fun a b => b.1 ≤ a.1)).take k

/-- The position used by the recency-exclusion check: the first index of
`current_conversation_messages` whose id equals the candidate's id
(`None == None` matches), `-1` when no entry matches. -/
def idMatchPos (l : List Msg) (msg : Msg) : Int :=
  match l.findIdx? (fun m => m.id == msg.id) with
  | some j => (j : Int)
  | none => -1

/-- The recency-exclusion test of the indexed paths
(`_retrieve_single_conversation` lines 504-511 and
`_retrieve_cross_conversation` lines 658-665). -/
def excludedByRecency (convMsgs : List Msg) (e : Nat) (msg : Msg) : Bool :=
  0 < e ∧ idMatchPos convMsgs msg ≥ (convMsgs.length : Int) - (e : Int)

/-- Scoring step shared by both indexed paths of the single-conversation
retrieval and the current-conversation block of the cross retrieval:
build the candidate entry when the score meets the threshold. -/
def entryIfThreshold (τ : ℚ) (msg : Msg) (sim td : ℚ) (factor : ℚ) :
    Option REntry :=
  let score := finalScore sim td factor
  if score ≥ τ then some ⟨msg, score, sim, td⟩ else none

/-- The hit-processing loop of the indexed single-conversation path
(lines 497-526): bound check against the message map, recency
exclusion, time decay, threshold. -/
def singleIndexedEntries (env : Env) (cfg : MMConfig) (msgMap : List Msg)
    (convMsgs : List Msg) (e : Nat) (hits : List (ℚ × Nat)) : List REntry :=
  hits.filterMap (fun h =>
    if h.2 ≥ msgMap.length then none
    else
      let msg := msgMap.getD h.2 default
      if excludedByRecency convMsgs e msg then none
      else
        entryIfThreshold cfg.similarity_threshold msg h.1
          (calcTimeDecay env (effTimestamp env msg)) 1)

/-- The vector stored for a message by a consistent index build. -/
def vecOfM (env : Env) (m : Msg) : Vec := (getVectorM env m.content).getD []

/-- The per-message scorer shared (after simplification under a total
embedder) by the linear scan and the indexed hit processing. -/
def entryOfM (env : Env) (cfg : MMConfig) (qv : Vec) (factor : ℚ) (m : Msg) :
    Option REntry :=
  entryIfThreshold cfg.similarity_threshold m (dot qv (vecOfM env m))
    (calcTimeDecay env (effTimestamp env m)) factor

/-- The linear-scan scoring loop (lines 547-568):
skip ineligible content, skip failed embeddings, score, threshold. -/
def linearEntries (env : Env) (cfg : MMConfig) (qv : Vec)
    (old : List Msg) (factor : ℚ) : List REntry :=
  old.filterMap (fun m =>
    if ¬contentOk m.content then none
    else
      match getVectorM env m.content with
      | none => none
      | some v =>
          entryIfThreshold cfg.similarity_threshold m (dot qv v)
            (calcTimeDecay env (effTimestamp env m)) factor)

/-- The indexed branch of `_retrieve_single_conversation`
(lines 442-535), reached when both the FAISS index and the message map
of the conversation exist. -/
def retrieveSingleIndexed (env : Env) (cfg : MMConfig) (st : MMState)
    (cid : String) (query : String) (e : Nat) : List Msg :=
  match dictLookup st.memory cid with
  | none => []
  | some conv =>
      if conv.messages.length ≤ e then []
      else
        let convMsgs := conv.messages.filter (fun m => m.role ≠ "system")
        let old := if 0 < e then convMsgs.take (convMsgs.length - e) else convMsgs
        if old = [] then []
        else
          match getVectorM env query with
          | none => []
          | some qv =>
              let rows := (dictLookup st.indices cid).getD []
              let msgMap := (dictLookup st.maps cid).getD []
              if rows = [] then []
              else
                let k := min (cfg.retrieval_top_k * 3) rows.length
                let hits := faissSearch rows qv k
                let results := singleIndexedEntries env cfg msgMap convMsgs e hits
                ((sortEntriesDesc results).take cfg.retrieval_top_k).map
                  (fun r => r.message)

/-- The linear-scan branch of `_retrieve_single_conversation`
(lines 442-471 and 545-571), reached when the conversation has no FAISS
index or no message map. -/
def retrieveSingleLinear (env : Env) (cfg : MMConfig) (st : MMState)
    (cid : String) (query : String) (e : Nat) : List Msg :=
  match dictLookup st.memory cid with
  | none => []
  | some conv =>
      if conv.messages.length ≤ e then []
      else
        let convMsgs := conv.messages.filter (fun m => m.role ≠ "system")
        let old := if 0 < e then convMsgs.take (convMsgs.length - e) else convMsgs
        if old = [] then []
        else
          match getVectorM env query with
          | none => []
          | some qv =>
              let results := linearEntries env cfg qv old 1
              ((sortEntriesDesc results).take cfg.retrieval_top_k).map
                (fun r => r.message)

/-- `_retrieve_single_conversation`: the indexed branch runs when both
`faiss_indices` and `message_index_maps` hold the conversation (a
missing message map raises `KeyError` inside the `try`, which falls
through to the linear scan). -/
def retrieveSingle (env : Env) (cfg : MMConfig) (st : MMState)
    (cid : String) (query : String) (e : Nat) : List Msg :=
  if (dictLookup st.indices cid).isSome ∧ (dictLookup st.maps cid).isSome then
    retrieveSingleIndexed env cfg st cid query e
  else
    retrieveSingleLinear env cfg st cid query e

/-- The non-system messages of the current conversation
(lines 586-592), used by the exclusion check. -/
def currentConvMsgs (st : MMState) (cid : String) : List Msg :=
  match dictLookup st.memory cid with
  | none => []
  | some conv => conv.messages.filter (fun m => m.role ≠ "system")

/-- Hit processing of one foreign conversation in
`_retrieve_cross_conversation` (lines 613-635): every valid hit is
tagged with its source conversation, time-decayed, discounted by 0.9
and thresholded — no recency exclusion is applied. -/
def crossForeignConvEntries (env : Env) (cfg : MMConfig) (convId : String)
    (msgMap : List Msg) (hits : List (ℚ × Nat)) : List REntry :=
  hits.filterMap (fun h =>
    if h.2 ≥ msgMap.length then none
    else
      let msg := { msgMap.getD h.2 default with source_conversation := some convId }
      entryIfThreshold cfg.similarity_threshold msg h.1
        (calcTimeDecay env (effTimestamp env msg)) (9/10))

/-- The foreign-conversation loop of `_retrieve_cross_conversation`
(lines 597-639): every indexed conversation except the current one is
searched with a 2x over-fetch. -/
def crossForeignResults (env : Env) (cfg : MMConfig) (st : MMState)
    (cid : String) (qv : Vec) : List REntry :=
  (st.indices.map (fun p =>
    if p.1 = cid then []
    else
      let msgMap := (dictLookup st.maps p.1).getD []
      if p.2 = [] then []
      else
        crossForeignConvEntries env cfg p.1 msgMap
          (faissSearch p.2 qv (min (cfg.retrieval_top_k * 2) p.2.length)))).flatten

/-- The current-conversation block of `_retrieve_cross_conversation`
(lines 642-680): 3x over-fetch, recency exclusion by id match, no
cross-conversation discount.  A missing message map raises `KeyError`
inside the `try`, which contributes nothing; modelling the map as `[]`
is observationally identical because every hit row is then out of
bounds and skipped. -/
def crossCurrentResults (env : Env) (cfg : MMConfig) (st : MMState)
    (cid : String) (qv : Vec) (e : Nat) : List REntry :=
  match dictLookup st.indices cid with
  | none => []
  | some rows =>
      if rows = [] then []
      else
        let msgMap := (dictLookup st.maps cid).getD []
        let hits := faissSearch rows qv (min (cfg.retrieval_top_k * 3) rows.length)
        singleIndexedEntries env cfg msgMap (currentConvMsgs st cid) e hits

/-- Python slice `conversation_messages[:-exclude_recent_count]` as it
appears (unguarded) in the linear cross fallback, line 696: with
`exclude_recent_count = 0` the slice is `l[:0] = []`. -/
def cutRecentUnguarded (l : List Msg) (e : Nat) : List Msg :=
  if e = 0 then [] else l.take (l.length - e)

/-- One conversation's contribution to the linear-scan fallback of
`_retrieve_cross_conversation` (lines 688-725): the current
conversation is cut positionally (with the unguarded slice), foreign
ones are not cut; foreign candidates are discounted by 0.9 and tagged
on a copy. -/
def crossLinearConvEntries (env : Env) (cfg : MMConfig) (cid : String)
    (qv : Vec) (e : Nat) (p : String × ConvData) : List REntry :=
  let convMsgs := p.2.messages.filter (fun m => m.role ≠ "system")
  let old :=
    if p.1 = cid then
      if convMsgs.length ≤ e then [] else cutRecentUnguarded convMsgs e
    else convMsgs
  let factor : ℚ := if p.1 ≠ cid then 9/10 else 1
  old.filterMap (fun m =>
    if ¬contentOk m.content then none
    else
      match getVectorM env m.content with
      | none => none
      | some v =>
          entryIfThreshold cfg.similarity_threshold
            { m with source_conversation := some p.1 } (dot qv v)
            (calcTimeDecay env (effTimestamp env m)) factor)

/-- The linear-scan fallback of `_retrieve_cross_conversation`
(lines 686-725), run only when no FAISS index exists at all. -/
def crossLinearResults (env : Env) (cfg : MMConfig) (st : MMState)
    (cid : String) (qv : Vec) (e : Nat) : List REntry :=
  (st.memory.map (crossLinearConvEntries env cfg cid qv e)).flatten

/-- `all_results` of `_retrieve_cross_conversation`: foreign loop, then
current-conversation block, then (only when `faiss_indices` is empty)
the linear fallback, in source order. -/
def crossAllResults (env : Env) (cfg : MMConfig) (st : MMState)
    (cid : String) (qv : Vec) (e : Nat) : List REntry :=
  crossForeignResults env cfg st cid qv
    ++ crossCurrentResults env cfg st cid qv e
    ++ (if st.indices = [] then crossLinearResults env cfg st cid qv e else [])

/-- `_retrieve_cross_conversation`. -/
def retrieveCross (env : Env) (cfg : MMConfig) (st : MMState)
    (cid : String) (query : String) (e : Nat) : List Msg :=
  match getVectorM env query with
  | none => []
  | some qv =>
      ((sortEntriesDesc (crossAllResults env cfg st cid qv e)).take
        cfg.retrieval_top_k).map (fun r => r.message)

/-- `retrieve_relevant_messages` (cross-conversation mode is the
default). -/
def retrieveRelevantMessages (env : Env) (cfg : MMConfig) (st : MMState)
    (cid : String) (query : String) (e : Nat) (cross : Bool) : List Msg :=
  if cross then retrieveCross env cfg st cid query e
  else retrieveSingle env cfg st cid query e

/-- The backward scan of `_get_sliding_window` (lines 339-346):
`for i in range(start, -1, -1)` looking for the first `user` role going
down.  The caller guarantees `start < messages.length`, so every access
is in range. -/
def findUserBack (msgs : List Msg) : Nat → Option Nat
  | 0 => if (msgs.getD 0 default).role = "user" then some 0 else none
  | j + 1 =>
      if (msgs.getD (j + 1) default).role = "user" then some (j + 1)
      else findUserBack msgs j

/-- `_get_sliding_window`.  Python integer arithmetic is kept exactly:
`target_count = max_messages - 1` may be `0` (slice `[-0:]` is the whole
list) or `-1` (slice `[-(-1):]` drops the first element).  The result is
`none` exactly when the Python code raises `IndexError`, which happens
only for `max_messages = 0` with a backward scan whose start index is
past the end. -/
def slidingWindow (msgs : List Msg) (maxMessages : Nat) : Option (List Msg) :=
  if msgs = [] then some []
  else if (msgs.length : Int) ≤ (maxMessages : Int) - 1 then some msgs
  else if pyDropStart msgs (-((maxMessages : Int) - 1)) ≠ [] ∧
      ((pyDropStart msgs (-((maxMessages : Int) - 1))).headD default).role ≠ "user" then
    if (msgs.length : Int) - ((maxMessages : Int) - 1) - 1 < 0 then some []
    else if (msgs.length : Int) ≤ (msgs.length : Int) - ((maxMessages : Int) - 1) - 1 then
      none
    else
      match findUserBack msgs
          ((msgs.length : Int) - ((maxMessages : Int) - 1) - 1).toNat with
      | some i =>
          some (if ((msgs.drop i).length : Int) > (maxMessages : Int) - 1 then
                  pyTakeTo (msgs.drop i) ((maxMessages : Int) - 1)
                else msgs.drop i)
      | none => some []
  else some (pyDropStart msgs (-((maxMessages : Int) - 1)))

/-- The first repair of `build_context` (lines 750-764): if the window
starts with a non-user message, restart it at the first user message of
the non-system history (clamped into the recent range) and re-truncate. -/
def repairFirstUser (nonSystem : List Msg) (maxRecent : Nat)
    (recent : List Msg) : List Msg :=
  if recent ≠ [] ∧ (recent.headD default).role ≠ "user" then
    match nonSystem.findIdx? (fun m => m.role = "user") with
    | some i =>
        let start0 : Int := max 0 ((nonSystem.length : Int) - (maxRecent : Int) + 1)
        let start : Int := if (i : Int) < start0 then (i : Int) else start0
        let r := nonSystem.drop start.toNat
        if (r.length : Int) > (maxRecent : Int) - 1 then
          pyDropStart r (-((maxRecent : Int) - 1))
        else r
    | none => recent
  else recent

/-- The supplement lookup of the second repair (lines 775-785): the
first position of the stored non-system messages whose id matches the
trailing user message and is immediately followed by an assistant
message (`break` happens only when the follow-up check succeeds, so the
scan continues past matches that fail it). -/
def findSupplementIdx (memNS : List Msg) (lastId : Option String) : Option Nat :=
  (memNS.enum.find? (fun p =>
    p.2.id == lastId ∧ p.1 + 1 < memNS.length ∧
      (memNS.getD (p.1 + 1) default).role = "assistant")).map (fun p => p.1)

/-- The second repair of `build_context` (lines 767-790): if the window
ends with a user message, try to append its stored assistant reply;
failing that, drop the trailing user message. -/
def repairTrailingUser (st : MMState) (cid : String) (recent : List Msg) :
    List Msg :=
  if recent ≠ [] ∧ ((recent.getLast?).getD default).role = "user" then
    let supplied :=
      match dictLookup st.memory cid with
      | none => recent
      | some conv =>
          let memNS := conv.messages.filter (fun m => m.role ≠ "system")
          let lastId := ((recent.getLast?).getD default).id
          if truthy lastId then
            match findSupplementIdx memNS lastId with
            | some i => recent ++ [memNS.getD (i + 1) default]
            | none => recent
          else recent
    if supplied ≠ [] ∧ ((supplied.getLast?).getD default).role = "user" then
      supplied.dropLast
    else supplied
  else recent

/-- The base persona text of the system preamble. -/
def baseSystemContent : String :=
  "你是一位专业的心理医生，擅长倾听和提供建议。请用温和、理解、专业的方式与来访者交流。"

/-- The chronological sort key of retrieved messages
(`x.get('timestamp', x.get('created_at', ''))`). -/
def tsSortKey (m : Msg) : String :=
  m.timestamp.getD (m.created_at.getD "")

/-- The 80-character preview of one retrieved user message
(`msg_content[:80] + "..." if len(msg_content) > 80 else msg_content`,
done on the character list so that it evaluates by kernel reduction). -/
def contentPreview (c : String) : String :=
  if c.toList.length > 80 then String.mk (c.toList.take 80) ++ "..." else c

/-- The numbered preview lines of the background-context block. -/
def previewLines : Nat → List String → String
  | _, [] => ""
  | i, c :: rest =>
      toString i ++ ". " ++ contentPreview c ++ "\n" ++ previewLines (i + 1) rest

/-- The synthesised system content (lines 804-826): up to three
retrieved user messages, sorted chronologically, prefixed to the base
persona; the base persona alone when nothing qualifies. -/
def systemContentOf (retrieved : List Msg) : String :=
  if retrieved ≠ [] then
    let sortedR := retrieved.insertionSort (fun a b => tsSortKey a ≤ tsSortKey b)
    let userContents :=
      ((sortedR.filter (fun m => m.role = "user")).map (fun m => m.content)).take 3
    if userContents ≠ [] then
      "[上下文背景：用户之前提到过以下相关话题，请基于这些信息理解用户的状态和情绪，但不要直接引用或重复这些内容。请用自己的话重新表达和回应。]\n"
        ++ previewLines 1 userContents ++ "\n" ++ baseSystemContent
    else baseSystemContent
  else baseSystemContent

/-- `build_context`.  Returns `none` exactly when the Python code
raises (possible only through `_get_sliding_window` with
`max_recent_messages = 0`); otherwise `some` of the returned list, `[]`
being the fail-closed result of the final validation. -/
def buildContext (env : Env) (cfg : MMConfig) (st : MMState) (cid : String)
    (currentMessage : String) (history : List Msg) : Option (List Msg) :=
  let nonSystem := history.filter (fun m => m.role ≠ "system")
  match slidingWindow nonSystem cfg.max_recent_messages with
  | none => none
  | some recent0 =>
      let recent1 := repairFirstUser nonSystem cfg.max_recent_messages recent0
      let recent2 := repairTrailingUser st cid recent1
      let retrieved := retrieveRelevantMessages env cfg st cid currentMessage
        recent2.length true
      let sysContent := systemContentOf retrieved
      let sysMsgs := history.filter (fun m => m.role = "system")
      let sysMsgs' :=
        match sysMsgs with
        | [] => [{ role := "system", content := sysContent : Msg }]
        | m :: rest => { m with content := sysContent } :: rest
      let context := sysMsgs' ++ recent2
        ++ [{ role := "user", content := currentMessage : Msg }]
      if ((context.getLast?).getD default).role ≠ "user" then some []
      else if 2 ≤ context.length ∧
          (context.getD (context.length - 2) default).role = "user" then some []
      else some context

/-!
Heap-indexed model for the aliasing claim: Python message dicts live in
an explicit heap (`List Msg`, a reference being a position), and the
conversation log as well as the message index maps hold references.
`_build_faiss_index` stores into the map the very references that the
log holds, which is how the in-place tag of the cross-conversation
foreign loop becomes visible in stored conversation state.
-/

/-- Manager state with explicit heap. -/
structure HState where
  heap : List Msg := []
  memory : List (String × List Nat) := []
  indices : List (String × List Vec) := []
  maps : List (String × List Nat) := []
deriving Repr

/-- `msg['_source_conversation'] = conv_id`: in-place mutation of the
dict at reference `r`. -/
def tagRef (convId : String) (heap : List Msg) (r : Nat) : List Msg :=
  heap.set r { heap.getD r default with source_conversation := some convId }

/-- `_build_faiss_index` in the heap model: the message map receives
the same references that the conversation log holds (no copies). -/
def buildFaissIndexH (env : Env) (st : HState) (cid : String) : HState :=
  match dictLookup st.memory cid with
  | none => st
  | some refs =>
      let convRefs := refs.filter (fun r => (st.heap.getD r default).role ≠ "system")
      if convRefs = [] then st
      else
        let pairs := convRefs.filterMap (fun r =>
          let c := (st.heap.getD r default).content
          if contentOk c then (getVectorM env c).map (fun v => (v, r)) else none)
        if pairs = [] then st
        else
          { st with
            indices := dictSet st.indices cid (pairs.map (fun p => p.1)),
            maps := dictSet st.maps cid (pairs.map (fun p => p.2)) }

/-- Hit processing of one foreign conversation in the heap model
(lines 613-635): each valid hit's dict is tagged in place before
scoring; the heap is threaded through. -/
def crossForeignConvH (env : Env) (cfg : MMConfig) (convId : String)
    (refs : List Nat) : List (ℚ × Nat) → List Msg → List REntry × List Msg
  | [], heap => ([], heap)
  | h :: rest, heap =>
      if h.2 ≥ refs.length then crossForeignConvH env cfg convId refs rest heap
      else
        let r := refs.getD h.2 0
        let heap' := tagRef convId heap r
        let msg := heap'.getD r default
        let res := crossForeignConvH env cfg convId refs rest heap'
        match entryIfThreshold cfg.similarity_threshold msg h.1
            (calcTimeDecay env (effTimestamp env msg)) (9/10) with
        | some entry => (entry :: res.1, res.2)
        | none => res

/-- The foreign-conversation loop in the heap model (lines 597-639). -/
def crossForeignLoopH (env : Env) (cfg : MMConfig)
    (maps : List (String × List Nat)) (cid : String) (qv : Vec) :
    List (String × List Vec) → List Msg → List REntry × List Msg
  | [], heap => ([], heap)
  | (convId, rows) :: rest, heap =>
      if convId = cid then crossForeignLoopH env cfg maps cid qv rest heap
      else
        let refs := (dictLookup maps convId).getD []
        if rows = [] then crossForeignLoopH env cfg maps cid qv rest heap
        else
          let res1 := crossForeignConvH env cfg convId refs
            (faissSearch rows qv (min (cfg.retrieval_top_k * 2) rows.length)) heap
          let res2 := crossForeignLoopH env cfg maps cid qv rest res1.2
          (res1.1 ++ res2.1, res2.2)

/-- Dereference a list of refs. -/
def derefAll (heap : List Msg) (refs : List Nat) : List Msg :=
  refs.map (fun r => heap.getD r default)

/-- The current-conversation block in the heap model (lines 642-680):
reads through the heap, never writes. -/
def crossCurrentH (env : Env) (cfg : MMConfig) (st : HState)
    (heap : List Msg) (cid : String) (qv : Vec) (e : Nat) : List REntry :=
  match dictLookup st.indices cid with
  | none => []
  | some rows =>
      if rows = [] then []
      else
        let msgMap := derefAll heap ((dictLookup st.maps cid).getD [])
        let convMsgs := (derefAll heap ((dictLookup st.memory cid).getD [])).filter
          (fun m => m.role ≠ "system")
        singleIndexedEntries env cfg msgMap convMsgs e
          (faissSearch rows qv (min (cfg.retrieval_top_k * 3) rows.length))

/-- The linear-scan fallback in the heap model (lines 686-725): scores
are computed on `msg.copy()` dicts, so the heap is untouched. -/
def crossLinearH (env : Env) (cfg : MMConfig) (st : HState)
    (cid : String) (qv : Vec) (e : Nat) : List REntry :=
  (st.memory.map (fun p =>
    let convMsgs := (derefAll st.heap p.2).filter (fun m => m.role ≠ "system")
    let old :=
      if p.1 = cid then
        if convMsgs.length ≤ e then [] else cutRecentUnguarded convMsgs e
      else convMsgs
    let factor : ℚ := if p.1 ≠ cid then 9/10 else 1
    (old.filterMap (fun m =>
      if ¬contentOk m.content then none
      else
        match getVectorM env m.content with
        | none => none
        | some v =>
            entryIfThreshold cfg.similarity_threshold
              { m with source_conversation := some p.1 } (dot qv v)
              (calcTimeDecay env (effTimestamp env m)) factor)))).flatten

/-- `_retrieve_cross_conversation` in the heap model: returns the
retrieved messages together with the final heap.  Only the foreign
indexed loop writes to the heap. -/
def crossRetrieveH (env : Env) (cfg : MMConfig) (st : HState)
    (cid : String) (query : String) (e : Nat) : List Msg × List Msg :=
  match getVectorM env query with
  | none => ([], st.heap)
  | some qv =>
      let res := crossForeignLoopH env cfg st.maps cid qv st.indices st.heap
      let ces := crossCurrentH env cfg st res.2 cid qv e
      let les := if st.indices = [] then crossLinearH env cfg st cid qv e else []
      let all := res.1 ++ ces ++ les
      (((sortEntriesDesc all).take cfg.retrieval_top_k).map (fun r => r.message),
        res.2)

/-- The linear-only mode (FAISS unavailable) in the heap model: the
same scan with no indexed loops; the heap comes back unchanged because
the scan tags copies. -/
def crossRetrieveLinearOnlyH (env : Env) (cfg : MMConfig) (st : HState)
    (cid : String) (query : String) (e : Nat) : List Msg × List Msg :=
  match getVectorM env query with
  | none => ([], st.heap)
  | some qv =>
      let all := crossLinearH env cfg st cid qv e
      (((sortEntriesDesc all).take cfg.retrieval_top_k).map (fun r => r.message),
        st.heap)

/-! ### Concrete fixtures used by counterexamples and witnesses -/

/-- An environment whose embedder always fails (retrieval degrades to
the empty result, isolating the assembly logic). -/
def envNone : Env :=
  { embed := fun _ => none, parseTs := fun _ => none, nowStr := "NOW", nowQ := 0 }

/-- An environment whose embedder returns a fixed unit vector. -/
def envOne : Env :=
  { embed := fun _ => some [1], parseTs := fun _ => none, nowStr := "NOW", nowQ := 0 }

def histU1 : Msg := { role := "user", content := "aaa1" }

def histU2 : Msg := { role := "user", content := "aaa2" }

def histA1 : Msg := { role := "assistant", content := "bbb1" }

/-- The context produced by `build_context` on the corrupted history
`[user, user, assistant]`: the interior consecutive-user pair survives. -/
def ctxC1 : List Msg :=
  [{ role := "system", content := baseSystemContent },
   histU1, histU2, histA1, { role := "user", content := "ddd" }]

/-- C2 fixture: a conversation whose only message is eligible. -/
def stC2a : MMState :=
  addMessages envOne {} "c" [{ id := some "m1", role := "user", content := "hello" }]

/-- C2 fixture: the same conversation after a sync that replaces the
message list by a single ineligible (length-1) message. -/
def stC2b : MMState :=
  syncConversation envOne stC2a "c" [{ role := "user", content := "a" }] none

/-- C4 fixture: embedder and timestamp parser chosen so that the two
candidates tie on final score with distinct raw similarities. -/
def envC4 : Env :=
  { embed := fun s =>
      if s = "aaa" then some [1/2]
      else if s = "bbb" then some [4/5]
      else if s = "qqq" then some [1] else none,
    parseTs := fun s =>
      if s = "t0" then some 100 else if s = "t1" then some (-100) else none,
    nowStr := "NOW", nowQ := 200 }

def m0C4 : Msg := { id := some "i0", role := "user", content := "aaa", timestamp := some "t0" }

def m1C4 : Msg := { id := some "i1", role := "assistant", content := "bbb", timestamp := some "t1" }

def stC4 : MMState := addMessages envC4 {} "c" [m0C4, m1C4]

/-- C4 witness fixture: a total embedder under which the two candidates
get distinct final scores (2/5 and 3/10). -/
def envC4w : Env :=
  { embed := fun s =>
      if s = "aaa" then some [1/2]
      else if s = "bbb" then some [3/5]
      else if s = "qqq" then some [1] else some [0],
    parseTs := fun s =>
      if s = "t0" then some 100 else if s = "t1" then some (-100) else none,
    nowStr := "NOW", nowQ := 200 }

def stC4w : MMState := addMessages envC4w {} "c" [m0C4, m1C4]

/-- The conversation stored by `stC4w`. -/
def convC4w : ConvData :=
  { messages := [m0C4, m1C4],
    metadata := { created_at := some "NOW", updated_at := some "NOW",
                  message_count := some 2 } }

/-- C8 fixture: a batch whose message carries the (falsy) empty-string id. -/
def batchC8 : List Msg := [{ id := some "", role := "user", content := "hello" }]

def stC8a : MMState := addMessages envOne {} "c" batchC8

def stC8b : MMState := addMessages envOne stC8a "c" batchC8

/-- C6 fixture: a parser with one timestamp 1 hour old and one 10200
hours old relative to `nowQ = 200`. -/
def envC6 : Env :=
  { embed := fun _ => none,
    parseTs := fun s =>
      if s = "recent" then some 199 else if s = "old" then some (-10000) else none,
    nowStr := "NOW", nowQ := 200 }

/-- C8 witness fixture: a batch carrying a truthy (non-empty) id. -/
def batchC8w : List Msg := [{ id := some "w1", role := "user", content := "hello" }]

/-- C10 fixture: an input message with an id and only an `updatedAt`
timestamp. -/
def msgC10 : Msg := { id := some "x1", role := "user", content := "hi", updatedAt := some "T7" }

def msgsC10 : List Msg := [msgC10]

/-- C5/C7 fixture: a state with one foreign conversation (`other`) and
the current conversation (`c`), both indexed. -/
def stC5 : MMState :=
  addMessages envC4 (addMessages envC4 {} "other" [m0C4]) "c" [m1C4]

/-- C7 fixture: foreign and current conversations holding messages with
identical content (hence identical similarity) and identical timestamp
(hence identical decay). -/
def mOtherC7 : Msg := { id := some "o1", role := "user", content := "aaa", timestamp := some "t0" }

def mCurC7 : Msg := { id := some "c1", role := "user", content := "aaa", timestamp := some "t0" }

def stC7 : MMState :=
  addMessages envC4 (addMessages envC4 {} "other" [mOtherC7]) "c" [mCurC7]

/-- The current-conversation candidate of the C7 witness. -/
def xC7 : REntry := { message := mCurC7, score := 2/5, similarity := 1/2, time_decay := 4/5 }

/-- The foreign candidate of the C7 witness (tagged with its source). -/
def yC7 : REntry :=
  { message := { mOtherC7 with source_conversation := some "other" },
    score := 9/25, similarity := 1/2, time_decay := 4/5 }

/-- C9 fixture: a heap state with one foreign conversation whose log
and message map both reference heap cell 0. -/
def hstC9 : HState :=
  { heap := [mOtherC7],
    memory := [("other", [0]), ("c", [])],
    indices := [("other", [[1/2]])],
    maps := [("other", [0])] }

/-! ### Claim C3: the sliding-window selector -/

theorem findUserBack_spec (msgs : List Msg) :
    ∀ j i, findUserBack msgs j = some i →
      i ≤ j ∧ (msgs.getD i default).role = "user" := by
  intro j
  induction j with
  | zero =>
      intro i h
      simp only [findUserBack] at h
      split at h
      · cases h; exact ⟨Nat.le_refl _, by assumption⟩
      · cases h
  | succ j ih =>
      intro i h
      simp only [findUserBack] at h
      split at h
      · cases h; exact ⟨Nat.le_refl _, by assumption⟩
      · obtain ⟨h1, h2⟩ := ih i h
        exact ⟨Nat.le_succ_of_le h1, h2⟩

/-- C3, counterexample.  The claim asserts that the selector returns at
most `window_size - 1` messages and that a lone assistant message yields
the empty sequence.  The code returns any input that already fits the
window unchanged, so `[assistant]` comes back as `[assistant]` (whose
head is not a user message), and with `window_size = 1` the Python slice
`messages[-0:]` is the whole list, so two messages come back although
the claimed bound is `0`. -/
theorem claim3_counterexample :
    slidingWindow [{ role := "assistant", content := "bbb1" }] 16 =
        some [{ role := "assistant", content := "bbb1" }] ∧
      ({ role := "assistant", content := "bbb1" : Msg }).role ≠ "user" ∧
      ((slidingWindow [{ role := "user", content := "aaa1" },
          { role := "assistant", content := "bbb1" }] 1).getD []).length = 2 := by
  decide

/-- C3, amended.  For `window_size ≥ 2` the selector never raises and
returns at most `window_size - 1` messages; an input that already fits
is returned unchanged (with no check on its first role — in particular a
lone assistant message is returned, not dropped); only when the input is
longer than `window_size - 1` is a non-empty result guaranteed to start
with a user message. -/
theorem headD_drop {α : Type} [Inhabited α] (l : List α) (i : Nat) :
    (l.drop i).headD default = l.getD i default := by
  induction l generalizing i with
  | nil => simp
  | cons a t ih =>
      cases i with
      | zero => simp
      | succ j =>
          simp only [List.drop_succ_cons, List.getD_cons_succ]
          exact ih j

theorem claim3_amended (msgs : List Msg) (maxM : Nat) (h2 : 2 ≤ maxM) :
    ∃ w, slidingWindow msgs maxM = some w ∧
      w.length ≤ maxM - 1 ∧
      (msgs.length ≤ maxM - 1 → w = msgs) ∧
      (maxM - 1 < msgs.length → w ≠ [] → (w.headD default).role = "user") := by
  unfold slidingWindow
  by_cases hnil : msgs = []
  · refine ⟨[], ?_, by simp, fun _ => hnil.symm, fun _ h => absurd rfl h⟩
    rw [if_pos hnil]
  · rw [if_neg hnil]
    by_cases hfits : (msgs.length : Int) ≤ (maxM : Int) - 1
    · rw [if_pos hfits]
      exact ⟨msgs, rfl, by omega, fun _ => rfl, fun hgt _ => absurd hgt (by omega)⟩
    · rw [if_neg hfits]
      have hlen : maxM - 1 < msgs.length := by omega
      have hdrop : pyDropStart msgs (-((maxM : Int) - 1)) =
          msgs.drop (msgs.length - (maxM - 1)) := by
        unfold pyDropStart
        rw [if_neg (by omega)]
        congr 1
        omega
      have hwlen : (pyDropStart msgs (-((maxM : Int) - 1))).length = maxM - 1 := by
        rw [hdrop, List.length_drop]
        omega
      by_cases hfix : pyDropStart msgs (-((maxM : Int) - 1)) ≠ [] ∧
          ((pyDropStart msgs (-((maxM : Int) - 1))).headD default).role ≠ "user"
      · rw [if_pos hfix]
        have hs0 : ¬(msgs.length : Int) - ((maxM : Int) - 1) - 1 < 0 := by omega
        have hs1 : ¬(msgs.length : Int) ≤
            (msgs.length : Int) - ((maxM : Int) - 1) - 1 := by omega
        rw [if_neg hs0, if_neg hs1]
        cases hfind : findUserBack msgs
            ((msgs.length : Int) - ((maxM : Int) - 1) - 1).toNat with
        | none =>
            exact ⟨[], rfl, by simp, fun h => absurd h (by omega),
              fun _ h => absurd rfl h⟩
        | some i =>
            dsimp only
            obtain ⟨hij, hrole⟩ := findUserBack_spec msgs _ i hfind
            have hilen : i < msgs.length := by omega
            have hhead : (msgs.drop i).headD default = msgs.getD i default :=
              headD_drop msgs i
            by_cases htr : ((msgs.drop i).length : Int) > (maxM : Int) - 1
            · rw [if_pos htr]
              have htt : pyTakeTo (msgs.drop i) ((maxM : Int) - 1) =
                  (msgs.drop i).take (maxM - 1) := by
                unfold pyTakeTo
                rw [if_pos (by omega)]
                congr 1
                omega
              refine ⟨_, rfl, ?_, fun h => absurd h (by omega), fun _ _ => ?_⟩
              · rw [htt]
                simp only [List.length_take]
                omega
              · rw [htt]
                have hheadtake : ((msgs.drop i).take (maxM - 1)).headD default =
                    (msgs.drop i).headD default := by
                  cases hd : msgs.drop i with
                  | nil =>
                      rw [hd] at htr
                      simp at htr
                      omega
                  | cons a l =>
                      cases hm : maxM - 1 with
                      | zero => omega
                      | succ k => simp
                rw [hheadtake, hhead]
                exact hrole
            · rw [if_neg htr]
              refine ⟨_, rfl, by omega, fun h => absurd h (by omega), fun _ _ => ?_⟩
              rw [hhead]
              exact hrole
      · rw [if_neg hfix]
        refine ⟨_, rfl, by omega, fun h => absurd h (by omega), fun _ hne => ?_⟩
        rcases not_and_or.mp hfix with h | h
        · exact absurd (by simpa using h) hne
        · simpa using h

/-- Witness for `claim3_amended` at a concrete input. -/
theorem claim3_amended_witness :
    ∃ w, slidingWindow [{ role := "user", content := "aaa1" },
        { role := "assistant", content := "bbb1" }] 2 = some w ∧
      w.length ≤ 2 - 1 ∧
      ([({ role := "user", content := "aaa1" } : Msg),
          { role := "assistant", content := "bbb1" }].length ≤ 2 - 1 →
        w = [{ role := "user", content := "aaa1" },
          { role := "assistant", content := "bbb1" }]) ∧
      (2 - 1 < [({ role := "user", content := "aaa1" } : Msg),
          { role := "assistant", content := "bbb1" }].length →
        w ≠ [] → (w.headD default).role = "user") :=
  claim3_amended _ 2 (by decide)

/-! ### Claim C1: consecutive user messages in `build_context` -/

/-- C1, counterexample.  On the (corrupted) history
`[user, user, assistant]` the assembler returns a non-empty context
containing two consecutive user messages at positions 1 and 2: the
final validation inspects only the last two positions, so the claimed
fail-closed empty result is not produced. -/
theorem claim1_counterexample :
    buildContext envNone {} {} "c" "ddd" [histU1, histU2, histA1] = some ctxC1 ∧
      ctxC1 ≠ [] ∧
      (ctxC1.getD 1 default).role = "user" ∧
      (ctxC1.getD 2 default).role = "user" := by
  refine ⟨by decide, by decide, by decide, by decide⟩

/-- C1, amended.  Whenever `build_context` returns without raising, the
result is either the fail-closed empty list or a sequence whose last
element has role `user` and whose last two elements are not both
`user`; only a violation at the final two positions triggers the
fail-closed result — consecutive `user` pairs earlier in the sequence
are not detected (see the counterexample). -/
theorem claim1_amended (env : Env) (cfg : MMConfig) (st : MMState)
    (cid currentMessage : String) (history : List Msg) (ctx : List Msg)
    (h : buildContext env cfg st cid currentMessage history = some ctx) :
    ctx = [] ∨
      (((ctx.getLast?).getD default).role = "user" ∧
        ¬(2 ≤ ctx.length ∧ (ctx.getD (ctx.length - 2) default).role = "user")) := by
  unfold buildContext at h
  dsimp only at h
  cases hsw : slidingWindow (history.filter (fun m => m.role ≠ "system"))
      cfg.max_recent_messages with
  | none =>
      rw [hsw] at h
      exact absurd h (by simp)
  | some recent0 =>
      rw [hsw] at h
      dsimp only at h
      split at h
      · exact Or.inl (Option.some_injective _ h).symm
      · split at h
        · exact Or.inl (Option.some_injective _ h).symm
        · rename_i h1 h2
          obtain rfl := (Option.some_injective _ h).symm
          exact Or.inr ⟨not_not.mp h1, h2⟩

/-- Witness for `claim1_amended` at a concrete input. -/
theorem claim1_amended_witness :
    ctxC1 = [] ∨
      (((ctxC1.getLast?).getD default).role = "user" ∧
        ¬(2 ≤ ctxC1.length ∧ (ctxC1.getD (ctxC1.length - 2) default).role = "user")) :=
  claim1_amended envNone {} {} "c" "ddd" [histU1, histU2, histA1] ctxC1 (by decide)

/-! ### Claim C6: time-decay values and monotonicity -/

/-- C6, counterexample.  The decay values are as claimed, but the
score `similarity * time_decay * factor` is not monotone in recency
when the similarity is negative (cosine similarity ranges over
`[-1, 1]`): with similarity `-1` the fresher candidate receives the
strictly lower score. -/
theorem claim6_counterexample :
    calcTimeDecay envC6 "recent" = 1 ∧
      calcTimeDecay envC6 "old" = 3/10 ∧
      finalScore (-1) (calcTimeDecay envC6 "recent") 1 <
        finalScore (-1) (calcTimeDecay envC6 "old") 1 := by
  refine ⟨?_, ?_, ?_⟩ <;>
    norm_num +decide [calcTimeDecay, timeDecayQ, envC6, finalScore]

/-- C6, amended.  The time-decay factor is non-increasing in message
age with the claimed values (1 up to 24h, 4/5 up to 7 days, 1/2 up to
30 days, 3/10 beyond, 1/2 for an unparseable timestamp), and for two
otherwise-identical candidates with *nonnegative* similarity the more
recent one never receives a lower score.  (With negative similarity the
score comparison reverses; see the counterexample.) -/
theorem claim6_amended (cur t1 t2 sim factor : ℚ)
    (hrecent : t2 ≤ t1) (hsim : 0 ≤ sim) (hfac : 0 ≤ factor) :
    timeDecayQ (some t2) cur ≤ timeDecayQ (some t1) cur ∧
      finalScore sim (timeDecayQ (some t2) cur) factor ≤
        finalScore sim (timeDecayQ (some t1) cur) factor ∧
      timeDecayQ none cur = 1/2 ∧
      (cur - t1 ≤ 24 → timeDecayQ (some t1) cur = 1) ∧
      (24 < cur - t1 → cur - t1 ≤ 168 → timeDecayQ (some t1) cur = 4/5) ∧
      (168 < cur - t1 → cur - t1 ≤ 720 → timeDecayQ (some t1) cur = 1/2) ∧
      (720 < cur - t1 → timeDecayQ (some t1) cur = 3/10) := by
  have hd : timeDecayQ (some t2) cur ≤ timeDecayQ (some t1) cur := by
    simp only [timeDecayQ]
    split_ifs <;> linarith
  refine ⟨hd, ?_, rfl, ?_, ?_, ?_, ?_⟩
  · unfold finalScore
    exact mul_le_mul_of_nonneg_right (mul_le_mul_of_nonneg_left hd hsim) hfac
  · intro h
    simp only [timeDecayQ]
    rw [if_pos h]
  · intro h1 h2
    simp only [timeDecayQ]
    rw [if_neg (by linarith), if_pos h2]
  · intro h1 h2
    simp only [timeDecayQ]
    rw [if_neg (by linarith), if_neg (by linarith), if_pos h2]
  · intro h1
    simp only [timeDecayQ]
    rw [if_neg (by linarith), if_neg (by linarith), if_neg (by linarith)]

/-- Witness for `claim6_amended` at concrete instants. -/
theorem claim6_amended_witness :
    timeDecayQ (some (-10000)) 200 ≤ timeDecayQ (some 199) 200 ∧
      finalScore (1/2) (timeDecayQ (some (-10000)) 200) (9/10) ≤
        finalScore (1/2) (timeDecayQ (some 199) 200) (9/10) ∧
      timeDecayQ none 200 = 1/2 ∧
      ((200 : ℚ) - 199 ≤ 24 → timeDecayQ (some 199) 200 = 1) ∧
      (24 < (200 : ℚ) - 199 → (200 : ℚ) - 199 ≤ 168 → timeDecayQ (some 199) 200 = 4/5) ∧
      (168 < (200 : ℚ) - 199 → (200 : ℚ) - 199 ≤ 720 → timeDecayQ (some 199) 200 = 1/2) ∧
      (720 < (200 : ℚ) - 199 → timeDecayQ (some 199) 200 = 3/10) :=
  claim6_amended 200 199 (-10000) (1/2) (9/10) (by norm_num) (by norm_num) (by norm_num)

/-! ### Claim C8: idempotence of `add_messages` by message id -/

theorem buildFaissIndex_memory (env : Env) (st : MMState) (cid : String) :
    (buildFaissIndex env st cid).memory = st.memory := by
  unfold buildFaissIndex
  cases h : dictLookup st.memory cid with
  | none => rfl
  | some conv =>
      dsimp only
      split_ifs <;> rfl

theorem dictLookup_dictSet_self (l : List (String × α)) (k : String) (v : α) :
    dictLookup (dictSet l k v) k = some v := by
  induction l with
  | nil => simp [dictSet, dictLookup]
  | cons p rest ih =>
      obtain ⟨k', v'⟩ := p
      by_cases h : k' = k
      · simp [dictSet, dictLookup, h]
      · simp [dictSet, dictLookup, h, ih]

/-- The message list stored by `add_messages`: the batch loop applied
to the previously stored messages (`[]` for a fresh conversation) with
the pre-loop id set. -/
theorem addMessages_messages (env : Env) (st : MMState) (cid : String)
    (batch : List Msg) :
    ((dictLookup (addMessages env st cid batch).memory cid).getD default).messages =
      processBatch cid
        ((((dictLookup st.memory cid).getD default).messages).filterMap
          (fun m => m.id))
        (((dictLookup st.memory cid).getD default).messages) batch := by
  unfold addMessages
  cases h : dictLookup st.memory cid with
  | none =>
      simp only [h, Option.isSome_none, Bool.false_eq_true, if_false,
        buildFaissIndex_memory, dictLookup_dictSet_self, Option.getD_some]
      rfl
  | some conv =>
      simp only [h, Option.isSome_some, if_true, buildFaissIndex_memory,
        dictLookup_dictSet_self, Option.getD_some]

theorem processBatch_ids_mono (cid : String) (ex : List String) :
    ∀ (batch acc : List Msg) (s : String),
      s ∈ acc.filterMap (fun m => m.id) →
        s ∈ (processBatch cid ex acc batch).filterMap (fun m => m.id) := by
  intro batch
  induction batch with
  | nil => intro acc s h; exact h
  | cons m rest ih =>
      intro acc s h
      unfold processBatch
      split
      · exact ih acc s h
      · refine ih _ s ?_
        simp only [List.filterMap_append]
        exact List.mem_append_left _ h

theorem processBatch_mem_ids (cid : String) (ex : List String) :
    ∀ (batch acc : List Msg),
      (∀ s ∈ ex, s ∈ acc.filterMap (fun m => m.id)) →
        ∀ m ∈ batch, truthy m.id →
          (m.id.getD "") ∈
            (processBatch cid ex acc batch).filterMap (fun m => m.id) := by
  intro batch
  induction batch with
  | nil => intro acc _ m hm; cases hm
  | cons m0 rest ih =>
      intro acc hex m hm htr
      unfold processBatch
      split
      · rename_i hskip
        rcases List.mem_cons.mp hm with hm | hm
        · subst hm
          exact processBatch_ids_mono cid ex rest acc _ (hex _ hskip.2)
        · exact ih acc hex m hm htr
      · rename_i hnoskip
        rcases List.mem_cons.mp hm with hm | hm
        · subst hm
          refine processBatch_ids_mono cid ex rest _ _ ?_
          obtain ⟨s, hs⟩ : ∃ s, m.id = some s := by
            cases hid : m.id with
            | none => rw [hid] at htr; cases htr
            | some s => exact ⟨s, rfl⟩
          have hsne : ¬s = "" := by
            rw [hs] at htr
            simpa [truthy] using htr
          simp only [List.filterMap_append, List.mem_append]
          right
          simp [truthy, hs, hsne]
        · refine ih _ ?_ m hm htr
          intro s hs
          simp only [List.filterMap_append]
          exact List.mem_append_left _ (hex s hs)

theorem processBatch_skip_all (cid : String) (ex : List String) :
    ∀ (batch acc : List Msg),
      (∀ m ∈ batch, truthy m.id ∧ (m.id.getD "") ∈ ex) →
        processBatch cid ex acc batch = acc := by
  intro batch
  induction batch with
  | nil => intro acc _; rfl
  | cons m rest ih =>
      intro acc h
      unfold processBatch
      rw [if_pos (h m (List.mem_cons_self m rest))]
      exact ih acc (fun m' hm' => h m' (List.mem_cons_of_mem m hm'))

/-- C8, counterexample.  A message carrying the empty-string id `""` is
never skipped (`if msg_id and ...` is falsy), so a second identical
append grows the conversation from 1 to 2 messages although every
message of the batch carries an id. -/
theorem claim8_counterexample :
    (∀ m ∈ batchC8, m.id.isSome) ∧
      (((dictLookup stC8a.memory "c").getD default).messages).length = 1 ∧
      (((dictLookup stC8b.memory "c").getD default).messages).length = 2 := by
  refine ⟨by decide, by decide, by decide⟩

/-- C8, amended.  Append is idempotent by message id for batches whose
messages all carry a *truthy* (non-`None`, non-empty) id: the second
call skips every message and leaves the stored message list unchanged.
(A message with the empty-string id defeats the skip check; see the
counterexample.) -/
theorem claim8_amended (env env' : Env) (st : MMState) (cid : String)
    (batch : List Msg) (hids : ∀ m ∈ batch, truthy m.id) :
    ((dictLookup (addMessages env' (addMessages env st cid batch) cid
        batch).memory cid).getD default).messages =
      ((dictLookup (addMessages env st cid batch).memory cid).getD
        default).messages := by
  rw [addMessages_messages env', addMessages_messages env]
  apply processBatch_skip_all
  intro m hm
  refine ⟨hids m hm, ?_⟩
  exact processBatch_mem_ids cid _ batch _ (fun s hs => hs) m hm (hids m hm)

/-- Witness for `claim8_amended` at a concrete batch. -/
theorem claim8_amended_witness :
    ((dictLookup (addMessages envOne (addMessages envOne {} "c" batchC8w) "c"
        batchC8w).memory "c").getD default).messages =
      ((dictLookup (addMessages envOne {} "c" batchC8w).memory "c").getD
        default).messages :=
  claim8_amended envOne envOne {} "c" batchC8w (by decide)

/-! ### Claim C2: index/message-map consistency after append and sync -/

theorem indexPairs_eq (env : Env) (l : List Msg)
    (hEmb : ∀ content : String, contentOk content → (env.embed content).isSome) :
    indexPairs env l = (l.filter (fun m => contentOk m.content)).map
      (fun m => ((getVectorM env m.content).getD [], m)) := by
  induction l with
  | nil => rfl
  | cons m rest ih =>
      simp only [indexPairs] at ih
      by_cases hc : contentOk m.content
      · obtain ⟨v, hv⟩ := Option.isSome_iff_exists.mp (hEmb m.content hc)
        have hg : getVectorM env m.content = some v := by
          unfold getVectorM
          rw [if_pos hc]
          exact hv
        simp [indexPairs, List.filterMap_cons, List.filter_cons, hc, hg, ih]
      · simp [indexPairs, List.filterMap_cons, List.filter_cons, hc, ih]

theorem eligible_ne_convMsgs_ne {msgs : List Msg}
    (h : eligibleMsgs msgs ≠ []) : msgs.filter (fun m => m.role ≠ "system") ≠ [] := by
  intro hc
  apply h
  unfold eligibleMsgs
  rw [hc]
  rfl

/-- After a `_build_faiss_index` run on a conversation that has at
least one eligible message (and an embedder that succeeds on eligible
content), the message map equals the eligible-message list and row `i`
of the index holds exactly the vector of map entry `i`. -/
theorem buildFaissIndex_invariant (env : Env) (st' : MMState) (cid : String)
    (hEmb : ∀ content : String, contentOk content → (env.embed content).isSome)
    (hne : eligibleMsgs (((dictLookup st'.memory cid).getD default).messages) ≠ []) :
    (dictLookup (buildFaissIndex env st' cid).maps cid).getD [] =
      eligibleMsgs (((dictLookup st'.memory cid).getD default).messages) ∧
    (dictLookup (buildFaissIndex env st' cid).indices cid).getD [] =
      (eligibleMsgs (((dictLookup st'.memory cid).getD default).messages)).map
        (fun m => (getVectorM env m.content).getD []) := by
  cases h : dictLookup st'.memory cid with
  | none =>
      rw [h] at hne
      exact absurd rfl hne
  | some conv =>
      simp only [h, Option.getD_some] at hne ⊢
      have hpairs : indexPairs env (conv.messages.filter (fun m => m.role ≠ "system")) =
          (eligibleMsgs conv.messages).map
            (fun m => ((getVectorM env m.content).getD [], m)) :=
        indexPairs_eq env _ hEmb
      have hcne : conv.messages.filter (fun m => m.role ≠ "system") ≠ [] :=
        eligible_ne_convMsgs_ne hne
      have hpne : indexPairs env (conv.messages.filter (fun m => m.role ≠ "system")) ≠ [] := by
        rw [hpairs]
        simp only [ne_eq, List.map_eq_nil_iff]
        exact hne
      unfold buildFaissIndex
      rw [h]
      dsimp only
      rw [if_neg hcne, if_neg hpne]
      dsimp only
      rw [dictLookup_dictSet_self, dictLookup_dictSet_self]
      simp only [Option.getD_some, hpairs, List.map_map]
      constructor
      · simp [Function.comp_def]
      · simp [Function.comp_def]

theorem addMessages_eq_build (env : Env) (st : MMState) (cid : String)
    (batch : List Msg) :
    ∃ st', addMessages env st cid batch = buildFaissIndex env st' cid :=
  ⟨_, rfl⟩

theorem syncConversation_eq_build (env : Env) (st : MMState) (cid : String)
    (msgs : List Msg) (md : Option Metadata) :
    ∃ st', syncConversation env st cid msgs md = buildFaissIndex env st' cid :=
  ⟨_, rfl⟩

/-- C2, counterexample.  Start from a conversation holding one eligible
message (index and map built for it), then sync-replace its messages
with a single ineligible one: `_build_faiss_index` returns early
(`if not vectors: return`) without clearing the old index, so the map
still holds one entry while the eligible-message count is zero. -/
theorem claim2_counterexample :
    (dictLookup stC2b.maps "c").getD [] =
        [{ id := some "m1", role := "user", content := "hello" }] ∧
      eligibleMsgs (((dictLookup stC2b.memory "c").getD default).messages) = [] := by
  refine ⟨by decide, by decide⟩

/-- C2, amended.  Immediately after `add_messages` or
`sync_conversation`, *provided the resulting message list still contains
at least one eligible message* (and the embedder succeeds on eligible
content), the conversation's message map is exactly its eligible-message
list and row `i` of the index is the vector of map entry `i`.  When the
operation leaves no eligible message, the rebuild returns early and a
stale index/map may survive (see the counterexample). -/
theorem claim2_amended (env : Env) (st : MMState) (cid : String)
    (batch msgs : List Msg) (md : Option Metadata)
    (hEmb : ∀ content : String, contentOk content → (env.embed content).isSome) :
    (eligibleMsgs (((dictLookup (addMessages env st cid batch).memory cid).getD
          default).messages) ≠ [] →
        (dictLookup (addMessages env st cid batch).maps cid).getD [] =
          eligibleMsgs (((dictLookup (addMessages env st cid batch).memory
            cid).getD default).messages) ∧
        (dictLookup (addMessages env st cid batch).indices cid).getD [] =
          (eligibleMsgs (((dictLookup (addMessages env st cid batch).memory
            cid).getD default).messages)).map
            (fun m => (getVectorM env m.content).getD [])) ∧
    (eligibleMsgs (((dictLookup (syncConversation env st cid msgs md).memory
          cid).getD default).messages) ≠ [] →
        (dictLookup (syncConversation env st cid msgs md).maps cid).getD [] =
          eligibleMsgs (((dictLookup (syncConversation env st cid msgs
            md).memory cid).getD default).messages) ∧
        (dictLookup (syncConversation env st cid msgs md).indices cid).getD [] =
          (eligibleMsgs (((dictLookup (syncConversation env st cid msgs
            md).memory cid).getD default).messages)).map
            (fun m => (getVectorM env m.content).getD [])) := by
  constructor
  · obtain ⟨st', heq⟩ := addMessages_eq_build env st cid batch
    rw [heq, buildFaissIndex_memory]
    intro hne
    exact buildFaissIndex_invariant env st' cid hEmb hne
  · obtain ⟨st', heq⟩ := syncConversation_eq_build env st cid msgs md
    rw [heq, buildFaissIndex_memory]
    intro hne
    exact buildFaissIndex_invariant env st' cid hEmb hne

/-- Witness for `claim2_amended` at a concrete state. -/
theorem claim2_amended_witness :
    (dictLookup (addMessages envOne {} "c" batchC8w).maps "c").getD [] =
      eligibleMsgs (((dictLookup (addMessages envOne {} "c" batchC8w).memory
        "c").getD default).messages) := by
  have h := claim2_amended envOne {} "c" batchC8w batchC8w none (fun _ _ => rfl)
  exact (h.1 (by decide)).1

/-! ### Claim C10: normalization performed by `sync_conversation` -/

/-- C10.  After a sync the stored conversation holds exactly one
normalized entry per input message, in order: role and content copied,
`conversation_id` set to the given id, a timestamp always present
(input `timestamp`/`updatedAt` or the fresh time), the id copied only
when the input carried one; prior messages are discarded and the stored
metadata's `message_count` equals the number of input messages. -/
theorem claim10 (env : Env) (st : MMState) (cid : String) (msgs : List Msg)
    (md : Option Metadata) :
    (dictLookup (syncConversation env st cid msgs md).memory cid).map
        (fun c => c.messages) = some (msgs.map (syncNormalize env cid)) ∧
      (dictLookup (syncConversation env st cid msgs md).memory cid).map
        (fun c => c.metadata.message_count) = some (some msgs.length) ∧
      ∀ m ∈ msgs,
        (syncNormalize env cid m).role = m.role ∧
        (syncNormalize env cid m).content = m.content ∧
        (syncNormalize env cid m).conversation_id = some cid ∧
        (syncNormalize env cid m).timestamp.isSome ∧
        (syncNormalize env cid m).id = m.id := by
  refine ⟨?_, ?_, ?_⟩
  · unfold syncConversation
    dsimp only
    rw [buildFaissIndex_memory]
    dsimp only
    rw [dictLookup_dictSet_self]
    rfl
  · unfold syncConversation
    dsimp only
    rw [buildFaissIndex_memory]
    dsimp only
    rw [dictLookup_dictSet_self]
    simp
  · intro m _
    exact ⟨rfl, rfl, rfl, rfl, rfl⟩

/-- Witness for `claim10` at a concrete input. -/
theorem claim10_witness :
    (dictLookup (syncConversation envOne {} "c" msgsC10 none).memory "c").map
        (fun c => c.messages) = some (msgsC10.map (syncNormalize envOne "c")) ∧
      (syncNormalize envOne "c" msgC10).timestamp.isSome := by
  have h := claim10 envOne {} "c" msgsC10 none
  exact ⟨h.1, (h.2.2 msgC10 (by decide)).2.2.2.1⟩

/-! ### Claim C5: scope of the recency exclusion in cross retrieval -/

theorem excludedByRecency_zero (convMsgs : List Msg) (msg : Msg) :
    excludedByRecency convMsgs 0 msg = false := by
  simp [excludedByRecency]

theorem entryIfThreshold_message (τ : ℚ) (msg : Msg) (sim td f : ℚ) (r : REntry)
    (h : entryIfThreshold τ msg sim td f = some r) : r.message = msg := by
  unfold entryIfThreshold at h
  dsimp only at h
  split_ifs at h
  cases h
  rfl

/-- The per-hit loop with recency exclusion equals the exclusion-free
loop filtered by the id-match recency predicate. -/
theorem singleIndexedEntries_exclusion (env : Env) (cfg : MMConfig)
    (msgMap convMsgs : List Msg) (e : Nat) (hits : List (ℚ × Nat)) :
    singleIndexedEntries env cfg msgMap convMsgs e hits =
      (singleIndexedEntries env cfg msgMap convMsgs 0 hits).filter
        (fun r => !excludedByRecency convMsgs e r.message) := by
  induction hits with
  | nil => rfl
  | cons h rest ih =>
      simp only [singleIndexedEntries, List.filterMap_cons] at ih ⊢
      by_cases h1 : h.2 ≥ msgMap.length
      · rw [if_pos h1, if_pos h1]
        exact ih
      · rw [if_neg h1, if_neg h1]
        rw [excludedByRecency_zero]
        simp only [Bool.false_eq_true, if_false]
        cases hE : entryIfThreshold cfg.similarity_threshold
            (msgMap.getD h.2 default) h.1
            (calcTimeDecay env (effTimestamp env (msgMap.getD h.2 default))) 1 with
        | none =>
            by_cases h2 : excludedByRecency convMsgs e (msgMap.getD h.2 default) = true
            · rw [if_pos h2]
              dsimp only
              exact ih
            · rw [if_neg h2]
              dsimp only
              exact ih
        | some r =>
            have hmsg : r.message = msgMap.getD h.2 default :=
              entryIfThreshold_message _ _ _ _ _ _ hE
            by_cases h2 : excludedByRecency convMsgs e (msgMap.getD h.2 default) = true
            · rw [if_pos h2]
              dsimp only
              rw [List.filter_cons]
              have hpr : (!excludedByRecency convMsgs e r.message) = false := by
                rw [hmsg, h2]
                rfl
              rw [hpr]
              simp only [Bool.false_eq_true, if_false]
              exact ih
            · rw [if_neg h2]
              dsimp only
              rw [List.filter_cons]
              have h2f : excludedByRecency convMsgs e (msgMap.getD h.2 default) = false :=
                Bool.eq_false_iff.mpr h2
              have hpr : (!excludedByRecency convMsgs e r.message) = true := by
                rw [hmsg, h2f]
                rfl
              rw [hpr]
              simp only [if_true]
              rw [ih]

/-- C5.  In cross-conversation retrieval the candidate list decomposes
as: the foreign-loop results (a term that does not depend on
`exclude_recent_count` at all — foreign candidates are never filtered
by the recency window), followed by the current-conversation results
filtered by the id-match predicate against the tail of the current
conversation's non-system message list, followed by the linear fallback
(whose foreign conversations are likewise independent of
`exclude_recent_count`, second conjunct). -/
theorem claim5 (env : Env) (cfg : MMConfig) (st : MMState) (cid : String)
    (qv : Vec) (e : Nat) :
    crossAllResults env cfg st cid qv e =
      crossForeignResults env cfg st cid qv
        ++ (crossCurrentResults env cfg st cid qv 0).filter
          (fun r => !excludedByRecency (currentConvMsgs st cid) e r.message)
        ++ (if st.indices = [] then crossLinearResults env cfg st cid qv e
            else []) ∧
      ∀ p : String × ConvData, p.1 ≠ cid →
        crossLinearConvEntries env cfg cid qv e p =
          crossLinearConvEntries env cfg cid qv 0 p := by
  constructor
  · unfold crossAllResults
    congr 1
    congr 1
    unfold crossCurrentResults
    cases hl : dictLookup st.indices cid with
    | none => rfl
    | some rows =>
        dsimp only
        by_cases hr : rows = []
        · rw [if_pos hr, if_pos hr]
          rfl
        · rw [if_neg hr, if_neg hr]
          exact singleIndexedEntries_exclusion env cfg _ _ e _
  · intro p hp
    simp [crossLinearConvEntries, hp]

/-- Witness for `claim5` at a concrete two-conversation state. -/
theorem claim5_witness :
    crossAllResults envC4 {} stC5 "c" [1] 2 =
      crossForeignResults envC4 {} stC5 "c" [1]
        ++ (crossCurrentResults envC4 {} stC5 "c" [1] 0).filter
          (fun r => !excludedByRecency (currentConvMsgs stC5 "c") 2 r.message)
        ++ (if stC5.indices = [] then crossLinearResults envC4 {} stC5 "c" [1] 2
            else []) ∧
      crossLinearConvEntries envC4 {} "c" [1] 2 ("other", default) =
        crossLinearConvEntries envC4 {} "c" [1] 0 ("other", default) := by
  have h := claim5 envC4 {} stC5 "c" [1] 2
  exact ⟨h.1, h.2 ("other", default) (by decide)⟩

/-! ### Claim C7: the cross-conversation discount never promotes a
foreign candidate over an equal current-conversation candidate -/

instance : IsTotal REntry (fun a b => b.score ≤ a.score) :=
  ⟨fun a b => le_total b.score a.score⟩

instance : IsTrans REntry (fun a b => b.score ≤ a.score) :=
  ⟨fun _ _ _ h1 h2 => le_trans h2 h1⟩

theorem sortEntriesDesc_sorted (l : List REntry) :
    (sortEntriesDesc l).Sorted (fun a b => b.score ≤ a.score) :=
  List.sorted_insertionSort _ l

theorem sortEntriesDesc_perm (l : List REntry) : List.Perm (sortEntriesDesc l) l :=
  List.perm_insertionSort _ l

theorem entryIfThreshold_spec (τ : ℚ) (msg : Msg) (sim td f : ℚ) (r : REntry)
    (h : entryIfThreshold τ msg sim td f = some r) :
    r.score = sim * td * f ∧ τ ≤ r.score ∧ r.similarity = sim ∧
      r.time_decay = td := by
  unfold entryIfThreshold at h
  dsimp only at h
  split_ifs at h with hs
  cases h
  exact ⟨rfl, hs, rfl, rfl⟩

/-- Every candidate produced by the foreign loop carries the 0.9
discount in its score and meets the threshold. -/
theorem crossForeignResults_mem (env : Env) (cfg : MMConfig) (st : MMState)
    (cid : String) (qv : Vec) (r : REntry)
    (hr : r ∈ crossForeignResults env cfg st cid qv) :
    r.score = r.similarity * r.time_decay * (9/10) ∧
      cfg.similarity_threshold ≤ r.score := by
  unfold crossForeignResults at hr
  rw [List.mem_flatten] at hr
  obtain ⟨l, hl, hrl⟩ := hr
  rw [List.mem_map] at hl
  obtain ⟨p, _, rfl⟩ := hl
  split_ifs at hrl
  · cases hrl
  · cases hrl
  · unfold crossForeignConvEntries at hrl
    rw [List.mem_filterMap] at hrl
    obtain ⟨a, _, ha⟩ := hrl
    by_cases hb : a.2 ≥ ((dictLookup st.maps p.1).getD []).length
    · rw [if_pos hb] at ha
      cases ha
    · rw [if_neg hb] at ha
      obtain ⟨h1, h2, h3, h4⟩ := entryIfThreshold_spec _ _ _ _ _ _ ha
      rw [← h3, ← h4] at h1
      exact ⟨h1, h2⟩

/-- Every candidate produced by the current-conversation block carries
no discount and meets the threshold. -/
theorem crossCurrentResults_mem (env : Env) (cfg : MMConfig) (st : MMState)
    (cid : String) (qv : Vec) (e : Nat) (r : REntry)
    (hr : r ∈ crossCurrentResults env cfg st cid qv e) :
    r.score = r.similarity * r.time_decay ∧
      cfg.similarity_threshold ≤ r.score := by
  unfold crossCurrentResults at hr
  cases hl : dictLookup st.indices cid with
  | none => rw [hl] at hr; cases hr
  | some rows =>
      rw [hl] at hr
      dsimp only at hr
      split_ifs at hr
      · cases hr
      · unfold singleIndexedEntries at hr
        rw [List.mem_filterMap] at hr
        obtain ⟨a, _, ha⟩ := hr
        by_cases hb : a.2 ≥ ((dictLookup st.maps cid).getD []).length
        · rw [if_pos hb] at ha
          cases ha
        · rw [if_neg hb] at ha
          dsimp only at ha
          by_cases hc : excludedByRecency (currentConvMsgs st cid) e
              (((dictLookup st.maps cid).getD []).getD a.2 default) = true
          · rw [if_pos hc] at ha
            cases ha
          · rw [if_neg hc] at ha
            obtain ⟨h1, h2, h3, h4⟩ := entryIfThreshold_spec _ _ _ _ _ _ ha
            rw [← h3, ← h4] at h1
            rw [mul_one] at h1
            exact ⟨h1, h2⟩

theorem sortEntriesDesc_pos_lt (l : List REntry) (x y : REntry)
    (hxy : y.score < x.score) (i j : Nat)
    (hi : i < (sortEntriesDesc l).length) (hj : j < (sortEntriesDesc l).length)
    (hxi : (sortEntriesDesc l)[i] = x) (hyj : (sortEntriesDesc l)[j] = y) :
    i < j := by
  rcases lt_trichotomy i j with h | h | h
  · exact h
  · exfalso
    subst h
    rw [hxi] at hyj
    rw [hyj] at hxy
    exact lt_irrefl _ hxy
  · exfalso
    have hp := List.pairwise_iff_get.mp (sortEntriesDesc_sorted l)
      ⟨j, hj⟩ ⟨i, hi⟩ h
    simp only [List.get_eq_getElem, hxi, hyj] at hp
    exact absurd hp (not_le.mpr hxy)

/-- C7.  For a current-conversation candidate `x` and a foreign
candidate `y` with equal similarity and equal time decay (and a
positive threshold, as configured), `y` scores strictly below `x`,
appears strictly after every occurrence of `x` in the sorted candidate
list, and can only be in the returned top-k if `x` also is (at an
earlier rank): the foreign candidate never ranks strictly above the
current one. -/
theorem claim7 (env : Env) (cfg : MMConfig) (st : MMState) (cid : String)
    (qv : Vec) (e : Nat) (x y : REntry)
    (hτ : 0 < cfg.similarity_threshold)
    (hx : x ∈ crossCurrentResults env cfg st cid qv e)
    (hy : y ∈ crossForeignResults env cfg st cid qv)
    (hsim : x.similarity = y.similarity)
    (hdec : x.time_decay = y.time_decay) :
    y.score < x.score ∧
      (∀ (i j : Nat)
          (hi : i < (sortEntriesDesc (crossAllResults env cfg st cid qv e)).length)
          (hj : j < (sortEntriesDesc (crossAllResults env cfg st cid qv e)).length),
          (sortEntriesDesc (crossAllResults env cfg st cid qv e))[i] = x →
          (sortEntriesDesc (crossAllResults env cfg st cid qv e))[j] = y →
          i < j) ∧
      (y ∈ (sortEntriesDesc (crossAllResults env cfg st cid qv e)).take
          cfg.retrieval_top_k →
        x ∈ (sortEntriesDesc (crossAllResults env cfg st cid qv e)).take
          cfg.retrieval_top_k) := by
  obtain ⟨hxs, _⟩ := crossCurrentResults_mem env cfg st cid qv e x hx
  obtain ⟨hys, hyτ⟩ := crossForeignResults_mem env cfg st cid qv y hy
  have hpos : 0 < y.similarity * y.time_decay := by
    by_contra hc
    push_neg at hc
    have : y.score ≤ 0 := by
      rw [hys]
      nlinarith
    linarith
  have hlt : y.score < x.score := by
    rw [hys, hxs, hsim, hdec]
    nlinarith
  have hxall : x ∈ crossAllResults env cfg st cid qv e := by
    unfold crossAllResults
    exact List.mem_append_left _ (List.mem_append_right _ hx)
  refine ⟨hlt, ?_, ?_⟩
  · intro i j hi hj hxi hyj
    exact sortEntriesDesc_pos_lt _ x y hlt i j hi hj hxi hyj
  · intro hytake
    obtain ⟨j, hj, hyj⟩ := List.getElem_of_mem hytake
    have hjlen : j < (sortEntriesDesc (crossAllResults env cfg st cid qv e)).length := by
      have := List.length_take_le cfg.retrieval_top_k
        (sortEntriesDesc (crossAllResults env cfg st cid qv e))
      have h2 : j < min cfg.retrieval_top_k
          (sortEntriesDesc (crossAllResults env cfg st cid qv e)).length := by
        rw [← List.length_take]
        exact hj
      omega
    have hjK : j < cfg.retrieval_top_k := by
      have h2 : j < min cfg.retrieval_top_k
          (sortEntriesDesc (crossAllResults env cfg st cid qv e)).length := by
        rw [← List.length_take]
        exact hj
      omega
    have hyj' : (sortEntriesDesc (crossAllResults env cfg st cid qv e))[j] = y := by
      have ht : ((sortEntriesDesc (crossAllResults env cfg st cid qv e)).take
          cfg.retrieval_top_k)[j] =
          (sortEntriesDesc (crossAllResults env cfg st cid qv e))[j] :=
        List.getElem_take _
      rw [← ht]
      exact hyj
    have hxsort : x ∈ sortEntriesDesc (crossAllResults env cfg st cid qv e) :=
      (sortEntriesDesc_perm _).mem_iff.mpr hxall
    obtain ⟨i, hi, hxi⟩ := List.getElem_of_mem hxsort
    have hij : i < j := sortEntriesDesc_pos_lt _ x y hlt i j hi hjlen hxi hyj'
    have hitake : i < ((sortEntriesDesc (crossAllResults env cfg st cid qv
        e)).take cfg.retrieval_top_k).length := by
      rw [List.length_take]
      omega
    have : ((sortEntriesDesc (crossAllResults env cfg st cid qv e)).take
        cfg.retrieval_top_k)[i] = x := by
      have ht2 : ((sortEntriesDesc (crossAllResults env cfg st cid qv e)).take
          cfg.retrieval_top_k)[i] =
          (sortEntriesDesc (crossAllResults env cfg st cid qv e))[i] :=
        List.getElem_take _
      rw [ht2]
      exact hxi
    rw [← this]
    exact List.getElem_mem hitake

/-- Witness for `claim7` at the concrete two-conversation state. -/
theorem claim7_witness : yC7.score < xC7.score :=
  (claim7 envC4 {} stC7 "c" [1] 0 xC7 yC7 (by norm_num)
    (by norm_num +decide [crossCurrentResults, stC7, envC4, addMessages,
      processBatch, buildFaissIndex, indexPairs, getVectorM, contentOk,
      strippedLen, dictLookup, dictSet, dot, faissSearch, sortEntriesDesc,
      singleIndexedEntries, entryIfThreshold, finalScore, excludedByRecency,
      idMatchPos, calcTimeDecay, timeDecayQ, effTimestamp, truthy,
      currentConvMsgs, mOtherC7, mCurC7, xC7, List.insertionSort,
      List.orderedInsert, Char.isWhitespace, List.dropWhile, List.filterMap,
      List.enum, List.enumFrom, List.findIdx?, List.zip, List.zipWith,
      List.foldr, List.sum])
    (by norm_num +decide [crossForeignResults, crossForeignConvEntries, stC7,
      envC4, addMessages, processBatch, buildFaissIndex, indexPairs,
      getVectorM, contentOk, strippedLen, dictLookup, dictSet, dot,
      faissSearch, sortEntriesDesc, entryIfThreshold, finalScore,
      calcTimeDecay, timeDecayQ, effTimestamp, truthy, mOtherC7, yC7,
      List.insertionSort, List.orderedInsert, Char.isWhitespace,
      List.dropWhile, List.filterMap, List.enum, List.enumFrom, List.zip,
      List.zipWith, List.foldr, List.sum])
    (by norm_num [xC7, yC7]) (by norm_num [xC7, yC7])).1

/-! ### Claim C9: the indexed cross retrieval mutates stored state -/

theorem tagRef_length (c : String) (heap : List Msg) (r : Nat) :
    (tagRef c heap r).length = heap.length :=
  List.length_set heap r _

theorem tagRef_getD_ne (c : String) (heap : List Msg) (r' r : Nat) (h : r' ≠ r) :
    (tagRef c heap r').getD r default = heap.getD r default := by
  unfold tagRef
  rw [List.getD_eq_getElem?_getD, List.getD_eq_getElem?_getD,
    List.getElem?_set_ne h]
  exact (List.getD_eq_getElem?_getD heap r default).symm

theorem tagRef_getD_self (c : String) (heap : List Msg) (r : Nat)
    (h : r < heap.length) :
    (tagRef c heap r).getD r default =
      { heap.getD r default with source_conversation := some c } := by
  unfold tagRef
  rw [List.getD_eq_getElem?_getD, List.getElem?_set_self h]
  rfl

theorem crossForeignConvH_length (env : Env) (cfg : MMConfig) (c : String)
    (refs : List Nat) :
    ∀ (hits : List (ℚ × Nat)) (heap : List Msg),
      (crossForeignConvH env cfg c refs hits heap).2.length = heap.length := by
  intro hits
  induction hits with
  | nil => intro heap; rfl
  | cons h rest ih =>
      intro heap
      simp only [crossForeignConvH]
      by_cases hb : h.2 ≥ refs.length
      · rw [if_pos hb]
        exact ih heap
      · rw [if_neg hb]
        cases hE : entryIfThreshold cfg.similarity_threshold
            ((tagRef c heap (refs.getD h.2 0)).getD (refs.getD h.2 0) default)
            h.1
            (calcTimeDecay env (effTimestamp env
              ((tagRef c heap (refs.getD h.2 0)).getD (refs.getD h.2 0) default)))
            (9/10) with
        | none =>
            exact (ih _).trans (tagRef_length _ _ _)
        | some entry =>
            exact (ih _).trans (tagRef_length _ _ _)

theorem getD_mem_of_lt (refs : List Nat) (i : Nat) (h : i < refs.length) :
    refs.getD i 0 ∈ refs := by
  rw [List.getD_eq_getElem?_getD, List.getElem?_eq_getElem h]
  exact List.getElem_mem h

theorem crossForeignConvH_getD_not_mem (env : Env) (cfg : MMConfig) (c : String)
    (refs : List Nat) (r : Nat) (hr : r ∉ refs) :
    ∀ (hits : List (ℚ × Nat)) (heap : List Msg),
      (crossForeignConvH env cfg c refs hits heap).2.getD r default =
        heap.getD r default := by
  intro hits
  induction hits with
  | nil => intro heap; rfl
  | cons h rest ih =>
      intro heap
      simp only [crossForeignConvH]
      by_cases hb : h.2 ≥ refs.length
      · rw [if_pos hb]
        exact ih heap
      · rw [if_neg hb]
        have hne : refs.getD h.2 0 ≠ r := by
          intro hEq
          apply hr
          rw [← hEq]
          exact getD_mem_of_lt refs h.2 (by omega)
        cases hE : entryIfThreshold cfg.similarity_threshold
            ((tagRef c heap (refs.getD h.2 0)).getD (refs.getD h.2 0) default)
            h.1
            (calcTimeDecay env (effTimestamp env
              ((tagRef c heap (refs.getD h.2 0)).getD (refs.getD h.2 0) default)))
            (9/10) with
        | none =>
            exact (ih _).trans (tagRef_getD_ne _ _ _ _ hne)
        | some entry =>
            exact (ih _).trans (tagRef_getD_ne _ _ _ _ hne)

theorem crossForeignConvH_preserve_tagged (env : Env) (cfg : MMConfig)
    (c : String) (refs : List Nat) (orig : Msg) (r : Nat) :
    ∀ (hits : List (ℚ × Nat)) (heap : List Msg), r < heap.length →
      heap.getD r default = { orig with source_conversation := some c } →
      (crossForeignConvH env cfg c refs hits heap).2.getD r default =
        { orig with source_conversation := some c } := by
  intro hits
  induction hits with
  | nil => intro heap _ htag; exact htag
  | cons h rest ih =>
      intro heap hlen htag
      simp only [crossForeignConvH]
      by_cases hb : h.2 ≥ refs.length
      · rw [if_pos hb]
        exact ih heap hlen htag
      · rw [if_neg hb]
        have hlen' : r < (tagRef c heap (refs.getD h.2 0)).length := by
          rw [tagRef_length]
          exact hlen
        have htag' : (tagRef c heap (refs.getD h.2 0)).getD r default =
            { orig with source_conversation := some c } := by
          by_cases hEq : refs.getD h.2 0 = r
          · rw [hEq, tagRef_getD_self _ _ _ hlen, htag]
          · rw [tagRef_getD_ne _ _ _ _ hEq, htag]
        cases hE : entryIfThreshold cfg.similarity_threshold
            ((tagRef c heap (refs.getD h.2 0)).getD (refs.getD h.2 0) default)
            h.1
            (calcTimeDecay env (effTimestamp env
              ((tagRef c heap (refs.getD h.2 0)).getD (refs.getD h.2 0) default)))
            (9/10) with
        | none =>
            exact ih _ hlen' htag'
        | some entry =>
            exact ih _ hlen' htag'

theorem crossForeignConvH_establish (env : Env) (cfg : MMConfig) (c : String)
    (refs : List Nat) (orig : Msg) (r : Nat) (sim : ℚ) (idx : Nat)
    (hidx : idx < refs.length) (hrdef : refs.getD idx 0 = r) :
    ∀ (hits : List (ℚ × Nat)) (heap : List Msg), r < heap.length →
      (heap.getD r default = orig ∨
        heap.getD r default = { orig with source_conversation := some c }) →
      (sim, idx) ∈ hits →
      (crossForeignConvH env cfg c refs hits heap).2.getD r default =
        { orig with source_conversation := some c } := by
  intro hits
  induction hits with
  | nil => intro heap _ _ hmem; cases hmem
  | cons h rest ih =>
      intro heap hlen hinv hmem
      simp only [crossForeignConvH]
      by_cases hb : h.2 ≥ refs.length
      · rw [if_pos hb]
        rcases List.mem_cons.mp hmem with hmem | hmem
        · exfalso
          rw [← hmem] at hb
          exact absurd hidx (not_lt.mpr hb)
        · exact ih heap hlen hinv hmem
      · rw [if_neg hb]
        have hlen' : r < (tagRef c heap (refs.getD h.2 0)).length := by
          rw [tagRef_length]
          exact hlen
        by_cases hEq : refs.getD h.2 0 = r
        · have htag' : (tagRef c heap (refs.getD h.2 0)).getD r default =
              { orig with source_conversation := some c } := by
            rw [hEq, tagRef_getD_self _ _ _ hlen]
            rcases hinv with h1 | h1 <;> rw [h1]
          cases hE : entryIfThreshold cfg.similarity_threshold
              ((tagRef c heap (refs.getD h.2 0)).getD (refs.getD h.2 0) default)
              h.1
              (calcTimeDecay env (effTimestamp env
                ((tagRef c heap (refs.getD h.2 0)).getD (refs.getD h.2 0) default)))
              (9/10) with
          | none =>
              exact crossForeignConvH_preserve_tagged env cfg c refs orig r
                rest _ hlen' htag'
          | some entry =>
              exact crossForeignConvH_preserve_tagged env cfg c refs orig r
                rest _ hlen' htag'
        · have hinv' : (tagRef c heap (refs.getD h.2 0)).getD r default = orig ∨
              (tagRef c heap (refs.getD h.2 0)).getD r default =
                { orig with source_conversation := some c } := by
            rw [tagRef_getD_ne _ _ _ _ hEq]
            exact hinv
          rcases List.mem_cons.mp hmem with hmem | hmem
          · exfalso
            apply hEq
            rw [← hmem]
            exact hrdef
          · cases hE : entryIfThreshold cfg.similarity_threshold
                ((tagRef c heap (refs.getD h.2 0)).getD (refs.getD h.2 0) default)
                h.1
                (calcTimeDecay env (effTimestamp env
                  ((tagRef c heap (refs.getD h.2 0)).getD (refs.getD h.2 0) default)))
                (9/10) with
            | none =>
                exact ih _ hlen' hinv' hmem
            | some entry =>
                exact ih _ hlen' hinv' hmem

theorem crossForeignLoopH_length (env : Env) (cfg : MMConfig)
    (maps : List (String × List Nat)) (cid : String) (qv : Vec) :
    ∀ (convs : List (String × List Vec)) (heap : List Msg),
      (crossForeignLoopH env cfg maps cid qv convs heap).2.length = heap.length := by
  intro convs
  induction convs with
  | nil => intro heap; rfl
  | cons p rest ih =>
      intro heap
      obtain ⟨c₀, rows₀⟩ := p
      simp only [crossForeignLoopH]
      by_cases h1 : c₀ = cid
      · rw [if_pos h1]
        exact ih heap
      · rw [if_neg h1]
        by_cases h2 : rows₀ = []
        · rw [if_pos h2]
          exact ih heap
        · rw [if_neg h2]
          exact (ih _).trans (crossForeignConvH_length _ _ _ _ _ _)

theorem crossForeignLoopH_untouched (env : Env) (cfg : MMConfig)
    (maps : List (String × List Nat)) (cid : String) (qv : Vec)
    (c : String) (r : Nat)
    (hdisj : ∀ c', c' ≠ c → r ∉ (dictLookup maps c').getD []) :
    ∀ (convs : List (String × List Vec)) (heap : List Msg),
      (∀ p ∈ convs, Prod.fst p ≠ c) →
      (crossForeignLoopH env cfg maps cid qv convs heap).2.getD r default =
        heap.getD r default := by
  intro convs
  induction convs with
  | nil => intro heap _; rfl
  | cons p rest ih =>
      intro heap hall
      obtain ⟨c₀, rows₀⟩ := p
      simp only [crossForeignLoopH]
      have hc₀ : c₀ ≠ c := hall (c₀, rows₀) (List.mem_cons_self _ _)
      have hall' : ∀ p ∈ rest, Prod.fst p ≠ c :=
        fun p hp => hall p (List.mem_cons_of_mem _ hp)
      by_cases h1 : c₀ = cid
      · rw [if_pos h1]
        exact ih heap hall'
      · rw [if_neg h1]
        by_cases h2 : rows₀ = []
        · rw [if_pos h2]
          exact ih heap hall'
        · rw [if_neg h2]
          exact (ih _ hall').trans
            (crossForeignConvH_getD_not_mem env cfg c₀ _ r (hdisj c₀ hc₀) _ heap)

theorem crossForeignLoopH_tags (env : Env) (cfg : MMConfig)
    (maps : List (String × List Nat)) (cid : String) (qv : Vec)
    (c : String) (rows : List Vec) (refs : List Nat) (orig : Msg) (r : Nat)
    (sim : ℚ) (idx : Nat)
    (hc : c ≠ cid) (hmap : dictLookup maps c = some refs) (hrows : rows ≠ [])
    (hhit : (sim, idx) ∈ faissSearch rows qv
      (min (cfg.retrieval_top_k * 2) rows.length))
    (hidx : idx < refs.length) (hrdef : refs.getD idx 0 = r)
    (hdisj : ∀ c', c' ≠ c → r ∉ (dictLookup maps c').getD []) :
    ∀ (convs : List (String × List Vec)) (heap : List Msg),
      (c, rows) ∈ convs → (convs.map Prod.fst).Nodup →
      r < heap.length → heap.getD r default = orig →
      (crossForeignLoopH env cfg maps cid qv convs heap).2.getD r default =
        { orig with source_conversation := some c } := by
  intro convs
  induction convs with
  | nil => intro heap hmem; cases hmem
  | cons p rest ih =>
      intro heap hmem hnodup hlen horig
      obtain ⟨c₀, rows₀⟩ := p
      have hnodup' : (rest.map Prod.fst).Nodup :=
        (List.nodup_cons.mp (by simpa using hnodup)).2
      have hnotin : c₀ ∉ rest.map Prod.fst :=
        (List.nodup_cons.mp (by simpa using hnodup)).1
      simp only [crossForeignLoopH]
      rcases List.mem_cons.mp hmem with hhd | htl
      · cases hhd
        rw [if_neg hc]
        have hrefs : (dictLookup maps c).getD [] = refs := by
          rw [hmap]
          rfl
        rw [hrefs, if_neg hrows]
        have hrest : ∀ p ∈ rest, Prod.fst p ≠ c := by
          intro p hp heq
          apply hnotin
          rw [← heq]
          exact List.mem_map_of_mem Prod.fst hp
        refine (crossForeignLoopH_untouched env cfg maps cid qv c r hdisj rest _
          hrest).trans ?_
        exact crossForeignConvH_establish env cfg c refs orig r sim idx hidx
          hrdef _ heap hlen (Or.inl horig) hhit
      · have hc₀ : c₀ ≠ c := by
          intro heq
          apply hnotin
          rw [heq]
          exact List.mem_map_of_mem Prod.fst htl
        by_cases h1 : c₀ = cid
        · rw [if_pos h1]
          exact ih heap htl hnodup' hlen horig
        · rw [if_neg h1]
          by_cases h2 : rows₀ = []
          · rw [if_pos h2]
            exact ih heap htl hnodup' hlen horig
          · rw [if_neg h2]
            have hskip : (crossForeignConvH env cfg c₀
                ((dictLookup maps c₀).getD [])
                (faissSearch rows₀ qv (min (cfg.retrieval_top_k * 2)
                  rows₀.length)) heap).2.getD r default =
                heap.getD r default :=
              crossForeignConvH_getD_not_mem env cfg c₀ _ r (hdisj c₀ hc₀) _ heap
            have hlen1 : r < (crossForeignConvH env cfg c₀
                ((dictLookup maps c₀).getD [])
                (faissSearch rows₀ qv (min (cfg.retrieval_top_k * 2)
                  rows₀.length)) heap).2.length := by
              rw [crossForeignConvH_length]
              exact hlen
            exact ih _ htl hnodup' hlen1 (hskip.trans horig)

/-- `_build_faiss_index` stores into the message map references drawn
from the conversation log itself (no copies): any map it installs is a
subset of the log's references — the aliasing that makes the foreign
loop's in-place tag visible in stored conversation state. -/
theorem buildFaissIndexH_maps_from_log (env : Env) (st : HState) (cid : String)
    (refs : List Nat) (h : dictLookup st.memory cid = some refs) :
    dictLookup (buildFaissIndexH env st cid).maps cid = dictLookup st.maps cid ∨
    ∃ refs', dictLookup (buildFaissIndexH env st cid).maps cid = some refs' ∧
      ∀ r ∈ refs', r ∈ refs := by
  unfold buildFaissIndexH
  rw [h]
  dsimp only
  split_ifs
  · left; rfl
  · left; rfl
  · right
    refine ⟨_, dictLookup_dictSet_self _ _ _, ?_⟩
    intro r hr
    simp only [List.mem_map] at hr
    obtain ⟨pr, hpr, rfl⟩ := hr
    rw [List.mem_filterMap] at hpr
    obtain ⟨r₀, hr₀, hpr⟩ := hpr
    split_ifs at hpr
    obtain ⟨v, _, rfl⟩ := Option.map_eq_some'.mp hpr
    exact List.mem_of_mem_filter hr₀

/-- C9.  On the indexed path, a foreign-conversation hit is tagged
in place: after `_retrieve_cross_conversation`, the heap cell that the
conversation log of the foreign conversation references carries
`_source_conversation`, so the stored conversation state itself has
changed (second conjunct); the linear fallback tags copies and returns
the heap unchanged (third conjunct). -/
theorem claim9 (env : Env) (cfg : MMConfig) (st : HState) (cid q : String)
    (e : Nat) (qv : Vec) (c : String) (rows : List Vec) (refs : List Nat)
    (sim : ℚ) (idx : Nat)
    (hq : getVectorM env q = some qv)
    (hc : c ≠ cid)
    (hcrows : (c, rows) ∈ st.indices)
    (hnodup : (st.indices.map Prod.fst).Nodup)
    (hmap : dictLookup st.maps c = some refs)
    (hrows : rows ≠ [])
    (hhit : (sim, idx) ∈ faissSearch rows qv
      (min (cfg.retrieval_top_k * 2) rows.length))
    (hidx : idx < refs.length)
    (hlen : refs.getD idx 0 < st.heap.length)
    (hdisj : ∀ c', c' ≠ c → refs.getD idx 0 ∉ (dictLookup st.maps c').getD [])
    (hmemlog : refs.getD idx 0 ∈ (dictLookup st.memory c).getD [])
    (hfresh : (st.heap.getD (refs.getD idx 0) default).source_conversation ≠
      some c) :
    (crossRetrieveH env cfg st cid q e).2.getD (refs.getD idx 0) default =
      { st.heap.getD (refs.getD idx 0) default with
        source_conversation := some c } ∧
    derefAll (crossRetrieveH env cfg st cid q e).2
        ((dictLookup st.memory c).getD []) ≠
      derefAll st.heap ((dictLookup st.memory c).getD []) ∧
    ∀ (cid' q' : String) (e' : Nat),
      (crossRetrieveLinearOnlyH env cfg st cid' q' e').2 = st.heap := by
  have hheap : (crossRetrieveH env cfg st cid q e).2 =
      (crossForeignLoopH env cfg st.maps cid qv st.indices st.heap).2 := by
    unfold crossRetrieveH
    rw [hq]
  have h1 : (crossRetrieveH env cfg st cid q e).2.getD (refs.getD idx 0)
      default = { st.heap.getD (refs.getD idx 0) default with
        source_conversation := some c } := by
    rw [hheap]
    exact crossForeignLoopH_tags env cfg st.maps cid qv c rows refs
      (st.heap.getD (refs.getD idx 0) default) (refs.getD idx 0) sim idx hc
      hmap hrows hhit hidx rfl hdisj st.indices st.heap hcrows hnodup hlen rfl
  refine ⟨h1, ?_, ?_⟩
  · intro hEq
    unfold derefAll at hEq
    have hpt := List.map_inj_left.mp hEq (refs.getD idx 0) hmemlog
    rw [h1] at hpt
    apply hfresh
    rw [← congrArg Msg.source_conversation hpt]
  · intro cid' q' e'
    unfold crossRetrieveLinearOnlyH
    cases hq' : getVectorM env q' with
    | none => rfl
    | some qv' => rfl

/-- Witness for `claim9` at a concrete heap state. -/
theorem claim9_witness :
    (crossRetrieveH envC4 {} hstC9 "c" "qqq" 0).2.getD 0 default =
      { hstC9.heap.getD 0 default with source_conversation := some "other" } := by
  have h := claim9 envC4 {} hstC9 "c" "qqq" 0 [1] "other" [[1/2]] [0] (1/2) 0
    (by rfl)
    (by decide)
    (by simp [hstC9])
    (by simp [hstC9])
    (by rfl)
    (by
      intro hcontra
      cases hcontra)
    (by norm_num [faissSearch, dot, List.insertionSort, List.orderedInsert,
      List.enum, List.enumFrom, List.zip, List.zipWith, List.foldr, List.sum])
    (by decide)
    (by decide)
    (by
      intro c' hne
      simp [hstC9, dictLookup, Ne.symm hne])
    (by decide)
    (by decide)
  exact h.1

/-! ### Claim C4: indexed vs linear-scan retrieval -/

theorem filterMap_none_eq_nil (l : List Msg) :
    List.filterMap (fun _ => (none : Option REntry)) l = [] := by
  induction l with
  | nil => rfl
  | cons a t ih => simp [List.filterMap_cons, ih]

theorem linearEntries_eq (env : Env) (cfg : MMConfig) (qv : Vec) (factor : ℚ)
    (hEmb : ∀ content : String, contentOk content → (env.embed content).isSome) :
    ∀ l : List Msg,
      linearEntries env cfg qv l factor =
        (l.filter (fun m => contentOk m.content)).filterMap
          (entryOfM env cfg qv factor) := by
  intro l
  induction l with
  | nil => rfl
  | cons m rest ih =>
      simp only [linearEntries] at ih
      by_cases hc : contentOk m.content
      · obtain ⟨v, hv⟩ := Option.isSome_iff_exists.mp (hEmb m.content hc)
        have hg : getVectorM env m.content = some v := by
          unfold getVectorM
          rw [if_pos hc]
          exact hv
        have hof : entryOfM env cfg qv factor m =
            entryIfThreshold cfg.similarity_threshold m (dot qv v)
              (calcTimeDecay env (effTimestamp env m)) factor := by
          unfold entryOfM vecOfM
          rw [hg]
          rfl
        simp only [linearEntries, List.filterMap_cons, List.filter_cons]
        rw [if_neg (by simp [hc]), hg, if_pos hc]
        simp only [List.filterMap_cons, hof]
        cases hE : entryIfThreshold cfg.similarity_threshold m (dot qv v)
            (calcTimeDecay env (effTimestamp env m)) factor with
        | none => exact ih
        | some b => rw [ih]
      · simp only [linearEntries, List.filterMap_cons, List.filter_cons]
        rw [if_pos (by simp [hc]), if_neg (by simp [hc])]
        exact ih

theorem findIdx_id_of_nodup :
    ∀ (l : List Msg) (s : Nat), (l.map Msg.id).Nodup →
      ∀ (i : Nat) (hi : i < l.length),
        List.findIdx? (fun mm => mm.id == (l.get ⟨i, hi⟩).id) l s = some (s + i) := by
  intro l
  induction l with
  | nil => intro s _ i hi; cases hi
  | cons m₀ rest ih =>
      intro s hnd i hi
      cases i with
      | zero =>
          simp only [List.findIdx?, List.get_cons_zero]
          rw [if_pos (by simp)]
          rfl
      | succ i' =>
          simp only [List.findIdx?, List.get_cons_succ]
          rw [if_neg (by
            simp only [beq_iff_eq]
            intro heq
            have h1 : m₀.id ∉ rest.map Msg.id :=
              (List.nodup_cons.mp (by simpa using hnd)).1
            apply h1
            rw [heq]
            exact List.mem_map_of_mem Msg.id (List.getElem_mem _))]
          rw [ih (s + 1) (List.nodup_cons.mp (by simpa using hnd)).2 i'
            (by simpa using Nat.lt_of_succ_lt_succ hi)]
          congr 1
          omega

theorem idMatchPos_eq (l : List Msg) (hnd : (l.map Msg.id).Nodup) (i : Nat)
    (hi : i < l.length) :
    idMatchPos l (l.get ⟨i, hi⟩) = (i : Int) := by
  unfold idMatchPos
  rw [findIdx_id_of_nodup l 0 hnd i hi]
  simp

theorem excluded_char (l : List Msg) (hnd : (l.map Msg.id).Nodup) (e : Nat)
    (i : Nat) (hi : i < l.length) :
    excludedByRecency l e (l.get ⟨i, hi⟩) = decide (l.length - e ≤ i) := by
  unfold excludedByRecency
  rw [idMatchPos_eq l hnd i hi]
  rw [decide_eq_decide]
  omega

theorem filterMap_excl_take (P : Msg → Bool) (F : Msg → Option REntry) :
    ∀ (l : List Msg) (cutoff : Nat) (excl : Msg → Bool),
      (∀ (i : Nat) (hi : i < l.length), excl (l.get ⟨i, hi⟩) = decide (cutoff ≤ i)) →
      (l.filter P).filterMap (fun m => if excl m then none else F m) =
        ((l.take cutoff).filter P).filterMap F := by
  intro l
  induction l with
  | nil => intro cutoff excl _; simp
  | cons m₀ rest ih =>
      intro cutoff excl hpos
      cases cutoff with
      | zero =>
          have hall : ∀ m ∈ (m₀ :: rest).filter P, excl m = true := by
            intro m hm
            obtain ⟨⟨i, hi⟩, he⟩ :=
              List.mem_iff_get.mp (List.mem_of_mem_filter hm)
            rw [← he, hpos i hi]
            simp
          rw [List.take_zero]
          simp only [List.filter_nil, List.filterMap_nil]
          rw [List.filterMap_congr (fun m hm => by rw [hall m hm])]
          exact filterMap_none_eq_nil _
      | succ k =>
          have h0 : excl m₀ = false := by
            have := hpos 0 (by simp)
            simpa using this
          have hrest : ∀ (i : Nat) (hi : i < rest.length),
              excl (rest.get ⟨i, hi⟩) = decide (k ≤ i) := by
            intro i hi
            have hstep := hpos (i + 1) (by simpa using Nat.succ_lt_succ hi)
            rw [List.get_cons_succ] at hstep
            rw [hstep, decide_eq_decide]
            omega
          rw [List.take_succ_cons]
          by_cases hp : P m₀
          · simp only [List.filter_cons, hp, if_pos, List.filterMap_cons, h0,
              Bool.false_eq_true, if_false]
            rw [ih k excl hrest]
          · simp only [List.filter_cons, hp, Bool.false_eq_true, if_false]
            exact ih k excl hrest

theorem sorted_eq_of_perm_of_nodup_scores :
    ∀ (l₁ l₂ : List REntry), List.Perm l₁ l₂ →
      List.Sorted (fun a b => b.score ≤ a.score) l₁ →
      List.Sorted (fun a b => b.score ≤ a.score) l₂ →
      (l₁.map REntry.score).Nodup → l₁ = l₂ := by
  intro l₁
  induction l₁ with
  | nil =>
      intro l₂ hperm _ _ _
      exact (hperm.symm.eq_nil).symm
  | cons a t₁ ih =>
      intro l₂ hperm hs₁ hs₂ hnd
      cases l₂ with
      | nil => exact absurd hperm.eq_nil (by simp)
      | cons b t₂ =>
          simp only [List.map_cons] at hnd
          have hab : a = b := by
            have ha2 : a ∈ b :: t₂ := hperm.mem_iff.mp (List.mem_cons_self a t₁)
            have hb1 : b ∈ a :: t₁ := hperm.mem_iff.mpr (List.mem_cons_self b t₂)
            rcases List.mem_cons.mp ha2 with h | ha2t
            · exact h
            rcases List.mem_cons.mp hb1 with h | hb1t
            · exact h.symm
            have h1 : a.score ≤ b.score := List.rel_of_sorted_cons hs₂ a ha2t
            have h2 : b.score ≤ a.score := List.rel_of_sorted_cons hs₁ b hb1t
            exfalso
            apply (List.nodup_cons.mp hnd).1
            have : a.score = b.score := le_antisymm h1 h2
            rw [this]
            exact List.mem_map_of_mem REntry.score hb1t
          subst hab
          rw [ih t₂ hperm.cons_inv hs₁.of_cons hs₂.of_cons
            (List.nodup_cons.mp hnd).2]

/-- Folding `filterMap` over an enumeration whose function depends only
on the entry (given membership) collapses to `filterMap` over the list. -/
theorem filterMap_enum_snd (G : Msg → Option REntry) :
    ∀ (l : List Msg) (H : Nat × Msg → Option REntry),
      (∀ (i : Nat) (m : Msg), (i, m) ∈ l.enum → H (i, m) = G m) →
      l.enum.filterMap H = l.filterMap G := by
  intro l H hag
  have h1 : l.enum.filterMap H = l.enum.filterMap (G ∘ Prod.snd) := by
    apply List.filterMap_congr
    intro p hp
    have h2 := hag p.1 p.2 (by rwa [Prod.mk.eta])
    rw [Prod.mk.eta] at h2
    exact h2
  rw [h1, ← List.filterMap_map Prod.snd G l.enum, List.enum_map_snd]

set_option maxRecDepth 8000 in
/-- C4, counterexample.  On a conversation whose two candidates tie on
final score (similarities 1/2 and 4/5 against decays 4/5 and 1/2), the
indexed path ranks them in FAISS similarity order while the linear scan
ranks them in message order: the two search strategies return different
ranked lists on the same state, query and exclusion count. -/
theorem claim4_counterexample :
    retrieveSingleIndexed envC4 {} stC4 "c" "qqq" 0 = [m1C4, m0C4] ∧
    retrieveSingleLinear envC4 {} stC4 "c" "qqq" 0 = [m0C4, m1C4] ∧
    retrieveSingleIndexed envC4 {} stC4 "c" "qqq" 0 ≠
      retrieveSingleLinear envC4 {} stC4 "c" "qqq" 0 := by
  have h1 : retrieveSingleIndexed envC4 {} stC4 "c" "qqq" 0 = [m1C4, m0C4] := by
    norm_num +decide [retrieveSingleIndexed, stC4, m0C4, m1C4, envC4,
      addMessages, processBatch, buildFaissIndex, indexPairs, getVectorM, contentOk,
      strippedLen, dictLookup, dictSet, dot, faissSearch, sortEntriesDesc,
      singleIndexedEntries, entryIfThreshold, finalScore,
      excludedByRecency, idMatchPos, calcTimeDecay, timeDecayQ, effTimestamp, truthy,
      List.insertionSort, List.orderedInsert, Char.isWhitespace, List.dropWhile,
      List.filterMap, List.enum, List.enumFrom, List.findIdx?, List.zip, List.zipWith,
      List.foldr, List.sum]
  have h2 : retrieveSingleLinear envC4 {} stC4 "c" "qqq" 0 = [m0C4, m1C4] := by
    norm_num +decide [retrieveSingleLinear, stC4, m0C4, m1C4, envC4,
      addMessages, processBatch, buildFaissIndex, indexPairs, getVectorM, contentOk,
      strippedLen, dictLookup, dictSet, dot, faissSearch, sortEntriesDesc,
      linearEntries, entryIfThreshold, finalScore,
      excludedByRecency, idMatchPos, calcTimeDecay, timeDecayQ, effTimestamp, truthy,
      List.insertionSort, List.orderedInsert, Char.isWhitespace, List.dropWhile,
      List.filterMap, List.enum, List.enumFrom, List.findIdx?, List.zip, List.zipWith,
      List.foldr, List.sum]
  refine ⟨h1, h2, ?_⟩
  rw [h1, h2]
  decide

/-- C4, amended.  The indexed path and the linear scan agree whenever the
index is consistent with the conversation (the message map is the
eligible-message list and row i is the vector of map entry i, as a
successful `_build_faiss_index` leaves them), message ids are distinct,
the embedder succeeds on every eligible content, the over-fetch bound
3k covers the whole index, and no two candidates tie on final score.
With score ties the two paths order tied candidates differently
(FAISS similarity order versus message order), as the counterexample
shows. -/
theorem claim4_amended (env : Env) (cfg : MMConfig) (st : MMState)
    (cid query : String) (e : Nat) (conv : ConvData) (qv : Vec)
    (hconv : dictLookup st.memory cid = some conv)
    (hq : getVectorM env query = some qv)
    (hEmb : ∀ content : String, contentOk content → (env.embed content).isSome)
    (hnd : ((conv.messages.filter (fun m => m.role ≠ "system")).map Msg.id).Nodup)
    (hMap : dictLookup st.maps cid = some (eligibleMsgs conv.messages))
    (hRows : dictLookup st.indices cid =
      some ((eligibleMsgs conv.messages).map (vecOfM env)))
    (hK : (eligibleMsgs conv.messages).length ≤ cfg.retrieval_top_k * 3)
    (hDist : (((eligibleMsgs conv.messages).filterMap
        (entryOfM env cfg qv 1)).map REntry.score).Nodup) :
    retrieveSingleIndexed env cfg st cid query e =
      retrieveSingleLinear env cfg st cid query e := by
  unfold retrieveSingleIndexed retrieveSingleLinear
  rw [hconv]
  dsimp only
  set convMsgs := conv.messages.filter (fun m => m.role ≠ "system") with hcmDef
  set old := if 0 < e then convMsgs.take (convMsgs.length - e) else convMsgs
    with holdDef
  by_cases hle : conv.messages.length ≤ e
  · rw [if_pos hle, if_pos hle]
  · rw [if_neg hle, if_neg hle]
    by_cases hold : old = []
    · rw [if_pos hold, if_pos hold]
    · rw [if_neg hold, if_neg hold]
      rw [hq]
      dsimp only
      rw [hRows, hMap]
      simp only [Option.getD_some]
      set elig := eligibleMsgs conv.messages with heligDef
      have hsubold : List.Sublist old convMsgs := by
        rw [holdDef]
        by_cases he : 0 < e
        · rw [if_pos he]
          exact List.take_sublist _ _
        · rw [if_neg he]
      have heqE : elig = convMsgs.filter (fun m => contentOk m.content) := by
        rw [heligDef]
        unfold eligibleMsgs
        rw [← hcmDef]
      by_cases helig : elig = []
      · rw [helig]
        simp only [List.map_nil]
        rw [if_pos trivial]
        have hfe : old.filter (fun m => contentOk m.content) = [] := by
          have h1 := hsubold.filter (fun m => contentOk m.content)
          rw [← heqE, helig] at h1
          exact List.sublist_nil.mp h1
        have hlin : linearEntries env cfg qv old 1 = [] := by
          rw [linearEntries_eq env cfg qv 1 hEmb old, hfe]
          rfl
        have hs0 : sortEntriesDesc ([] : List REntry) = [] := rfl
        rw [hlin, hs0, List.take_nil, List.map_nil]
      · have hrne : elig.map (vecOfM env) ≠ [] := by
          intro hc
          exact helig (List.map_eq_nil_iff.mp hc)
        rw [if_neg hrne]
        have hkmin : min (cfg.retrieval_top_k * 3) (elig.map (vecOfM env)).length
            = (elig.map (vecOfM env)).length := by
          rw [List.length_map]
          exact min_eq_right hK
        rw [hkmin]
        have holdEq : old = convMsgs.take (convMsgs.length - e) := by
          rw [holdDef]
          by_cases he : 0 < e
          · rw [if_pos he]
          · rw [if_neg he]
            have he0 : e = 0 := Nat.eq_zero_of_not_pos he
            rw [he0, Nat.sub_zero, List.take_length]
        have hfs : faissSearch (elig.map (vecOfM env)) qv
            (elig.map (vecOfM env)).length
            = ((elig.map (vecOfM env)).enum.map
                (fun p => (dot qv p.2, p.1))).insertionSort
                (fun a b => b.1 ≤ a.1) := by
          unfold faissSearch
          apply List.take_of_length_le
          rw [(List.perm_insertionSort _ _).length_eq, List.length_map,
            List.enum_length]
        have hEidx : singleIndexedEntries env cfg elig convMsgs e
              ((elig.map (vecOfM env)).enum.map (fun p => (dot qv p.2, p.1)))
            = elig.filterMap (fun m =>
                if excludedByRecency convMsgs e m then none
                else entryOfM env cfg qv 1 m) := by
          unfold singleIndexedEntries
          rw [List.filterMap_map, List.enum_map, List.filterMap_map]
          apply filterMap_enum_snd
          intro i m hm
          have hi : i < elig.length := List.fst_lt_of_mem_enum hm
          have hms : elig[i]? = some m := List.mem_enum_iff_getElem?.mp hm
          have hgetD : elig.getD i default = m := by
            rw [List.getD_eq_getElem?_getD, hms, Option.getD_some]
          simp only [Function.comp, Prod.map, id]
          rw [if_neg (by omega), hgetD]
          rfl
        have hExcl : elig.filterMap (fun m =>
              if excludedByRecency convMsgs e m then none
              else entryOfM env cfg qv 1 m)
            = ((convMsgs.take (convMsgs.length - e)).filter
                (fun m => contentOk m.content)).filterMap
                  (entryOfM env cfg qv 1) := by
          rw [heqE]
          exact filterMap_excl_take (fun m => contentOk m.content)
            (entryOfM env cfg qv 1) convMsgs (convMsgs.length - e)
            (excludedByRecency convMsgs e)
            (fun i hi => excluded_char convMsgs hnd e i hi)
        have hlinEq : linearEntries env cfg qv old 1
            = (old.filter (fun m => contentOk m.content)).filterMap
                (entryOfM env cfg qv 1) :=
          linearEntries_eq env cfg qv 1 hEmb old
        have hIdxEq : singleIndexedEntries env cfg elig convMsgs e
              ((elig.map (vecOfM env)).enum.map (fun p => (dot qv p.2, p.1)))
            = (old.filter (fun m => contentOk m.content)).filterMap
                (entryOfM env cfg qv 1) := by
          rw [hEidx, hExcl, ← holdEq]
        have hmain : sortEntriesDesc (singleIndexedEntries env cfg elig convMsgs e
              (faissSearch (elig.map (vecOfM env)) qv
                (elig.map (vecOfM env)).length))
            = sortEntriesDesc (linearEntries env cfg qv old 1) := by
          apply sorted_eq_of_perm_of_nodup_scores
          · refine (sortEntriesDesc_perm _).trans ?_
            refine List.Perm.trans ?_ (sortEntriesDesc_perm _).symm
            rw [hfs, hlinEq, ← hIdxEq]
            unfold singleIndexedEntries
            exact (List.perm_insertionSort _ _).filterMap _
          · exact sortEntriesDesc_sorted _
          · exact sortEntriesDesc_sorted _
          · have hp2 : List.Perm
                (sortEntriesDesc (singleIndexedEntries env cfg elig convMsgs e
                  (faissSearch (elig.map (vecOfM env)) qv
                    (elig.map (vecOfM env)).length)))
                ((old.filter (fun m => contentOk m.content)).filterMap
                  (entryOfM env cfg qv 1)) := by
              refine (sortEntriesDesc_perm _).trans ?_
              rw [hfs, ← hIdxEq]
              unfold singleIndexedEntries
              exact (List.perm_insertionSort _ _).filterMap _
            have hsub : List.Sublist
                ((old.filter (fun m => contentOk m.content)).filterMap
                  (entryOfM env cfg qv 1))
                (elig.filterMap (entryOfM env cfg qv 1)) := by
              rw [heqE]
              exact (hsubold.filter _).filterMap _
            have hnodup0 : (((old.filter (fun m => contentOk m.content)).filterMap
                (entryOfM env cfg qv 1)).map REntry.score).Nodup :=
              hDist.sublist (hsub.map _)
            exact (hp2.map REntry.score).symm.nodup hnodup0
        rw [hmain]

set_option maxRecDepth 8000 in
/-- Witness for `claim4_amended` at a concrete indexed state whose two
candidates score 2/5 and 3/10. -/
theorem claim4_amended_witness :
    retrieveSingleIndexed envC4w {} stC4w "c" "qqq" 0 =
      retrieveSingleLinear envC4w {} stC4w "c" "qqq" 0 := by
  refine claim4_amended envC4w {} stC4w "c" "qqq" 0 convC4w [1]
    ?_ ?_ ?_ ?_ ?_ ?_ ?_ ?_
  · decide
  · norm_num +decide [getVectorM, contentOk, strippedLen, envC4w,
      Char.isWhitespace, List.dropWhile]
  · intro c hc
    unfold envC4w
    dsimp only
    split_ifs <;> rfl
  · decide
  · decide
  · norm_num +decide [stC4w, m0C4, m1C4, envC4w, convC4w,
      addMessages, processBatch, buildFaissIndex, indexPairs, getVectorM, contentOk,
      strippedLen, dictLookup, dictSet, eligibleMsgs, vecOfM,
      Char.isWhitespace, List.dropWhile, List.filterMap]
  · decide
  · norm_num +decide [stC4w, m0C4, m1C4, envC4w, convC4w, eligibleMsgs,
      entryOfM, entryIfThreshold, finalScore, vecOfM, getVectorM, contentOk,
      strippedLen, dot, calcTimeDecay, timeDecayQ, effTimestamp, truthy, dictLookup,
      Char.isWhitespace, List.dropWhile, List.filterMap, List.zip, List.zipWith,
      List.foldr, List.sum]

end PsyDoctor
